import Mathlib

/-!
Verification of the accent-detector repository.

The development shallowly embeds the response-normalization routine of
`src/services/geminiService.ts` (`analyzeAudio`: trim, strip an optional
Markdown code fence with the regex taken verbatim from the source, parse
JSON, validate the shape, clamp the confidence values) and the recording
session logic of the main component (`processAudio` and the state
transitions of `App`).

Conventions:
* strings are modelled as `List Char`;
* JavaScript numbers are modelled as exact rationals (`ℚ`).  `JSON.parse`
  converts a numeric literal to the nearest IEEE double; that conversion is
  monotone and fixes `0` and `100`, so clamping behaves identically on the
  exact values, and every concrete number appearing in a theorem below is
  exactly representable as a double;
* the backtracking regex engine of JavaScript is embedded operationally:
  each piece of the fence regex contributes its list of candidate
  end-positions in backtracking priority order, the list monad concatenates
  them depth-first, and `head?` picks the first overall match, which is
  exactly the match (and capture) JavaScript returns.
-/

/-! ## Character classes (JavaScript semantics)

`\w` in a JavaScript regex is `[A-Za-z0-9_]`; `\s` is the ECMAScript
WhiteSpace ∪ LineTerminator set, which is also the set of characters
stripped by `String.prototype.trim`. -/

/-- The backtick character, written via its code point. -/
def bq : Char := Char.ofNat 96

/-- JavaScript regex `\w`: ASCII letters, digits and underscore. -/
def isWordChar (c : Char) : Bool :=
  let n := c.toNat
  (65 ≤ n && n ≤ 90) || (97 ≤ n && n ≤ 122) || (48 ≤ n && n ≤ 57) || n == 95

/-- JavaScript regex `\s` (and the character set stripped by
`String.prototype.trim`): tab, LF, VT, FF, CR, space, NBSP, the Unicode
space separators, LS, PS and the BOM. -/
def isJsSpace (c : Char) : Bool :=
  let n := c.toNat
  (9 ≤ n && n ≤ 13) || n == 32 || n == 160 || n == 0x1680 ||
  (0x2000 ≤ n && n ≤ 0x200A) || n == 0x2028 || n == 0x2029 ||
  n == 0x202F || n == 0x205F || n == 0x3000 || n == 0xFEFF

/-- JSON whitespace accepted by `JSON.parse` between tokens:
space, tab, LF, CR. -/
def isJsonWS (c : Char) : Bool :=
  let n := c.toNat
  n == 32 || n == 9 || n == 10 || n == 13

/-! ## `String.prototype.trim` -/

/-- Remove the longest all-`p` suffix. -/
def dropTrail (p : Char → Bool) (l : List Char) : List Char :=
  (l.reverse.dropWhile p).reverse

/-- JavaScript `String.prototype.trim`, on `List Char`. -/
def jsTrimL (l : List Char) : List Char :=
  dropTrail isJsSpace (l.dropWhile isJsSpace)

/-! ## The fence regex

`geminiService.ts` line 49: `const fenceRegex = /^```(\w*)?\s*\n?(.*?)\n?\s*```$/s;`

The regex is anchored at both ends and the string has no `m` flag, so the
only match attempt is at position 0 and `$` is the very end of the input.
Each component is embedded as the list of its candidate end positions in
backtracking priority order (greedy pieces longest first, the lazy `(.*?)`
shortest first); the list monad chains the components depth first, so the
head of the final candidate list is precisely the match JavaScript finds,
together with the span of capture group 2. -/

/-- Length of the maximal all-`p` prefix. -/
def runLen (p : Char → Bool) (l : List Char) : Nat :=
  (l.takeWhile p).length

/-- `[k, k-1, ..., 0]`: the positions a greedy star tries, longest first. -/
def descRange (k : Nat) : List Nat := (List.range (k + 1)).reverse

/-- `[0, 1, ..., k]`: the positions a lazy star tries, shortest first. -/
def ascRange (k : Nat) : List Nat := List.range (k + 1)

/-- Three literal backticks at position `p`. -/
def isB3At (s : List Char) (p : Nat) : Bool :=
  (s[p]? == some bq) && (s[p + 1]? == some bq) && (s[p + 2]? == some bq)

/-- Literal ` ``` `: consumes three characters or fails. -/
def lit3 (s : List Char) (p : Nat) : List Nat :=
  if isB3At s p then [p + 3] else []

/-- Greedy star over a character class: candidate end positions, longest
match first. -/
def starDesc (cls : Char → Bool) (s : List Char) (p : Nat) : List Nat :=
  (descRange (runLen cls (s.drop p))).map (fun t => p + t)

/-- Greedy `\n?`: take the newline if present, prefer taking it. -/
def optNl (s : List Char) (p : Nat) : List Nat :=
  if s[p]? == some '\n' then [p + 1, p] else [p]

/-- Lazy `(.*?)` under the `s` flag: any span, shortest first. -/
def lazyAsc (s : List Char) (p : Nat) : List Nat :=
  (ascRange (s.length - p)).map (fun k => p + k)

/-- Tail of the regex after capture group 2: `\n?\s*` ++ three backticks
++ `$`.  `b` and `r` delimit the group-2 capture and are passed through. -/
def fenceTail (s : List Char) (b r : Nat) : List (Nat × Nat) :=
  (optNl s r).flatMap fun p6 =>
  (starDesc isJsSpace s p6).flatMap fun p7 =>
  (lit3 s p7).flatMap fun p8 =>
  if p8 == s.length then [(b, r)] else []

/-- The regex from the start of capture group 2 onwards. -/
def fenceFromB (s : List Char) (b : Nat) : List (Nat × Nat) :=
  (lazyAsc s b).flatMap fun r => fenceTail s b r

/-- The regex after the optional word token: `\s*\n?(.*?)\n?\s*` ++
backticks ++ `$`. -/
def fenceFromP2 (s : List Char) (p2 : Nat) : List (Nat × Nat) :=
  (starDesc isJsSpace s p2).flatMap fun p3 =>
  (optNl s p3).flatMap fun b =>
  fenceFromB s b

/-- All matches of the fence regex in backtracking priority order; the
group `(\w*)?` first tries to participate (its `\w*` greedy), then to be
skipped, which is the trailing `[p1]` alternative. -/
def fenceSearch (s : List Char) : List (Nat × Nat) :=
  (lit3 s 0).flatMap fun p1 =>
  ((starDesc isWordChar s p1) ++ [p1]).flatMap fun p2 =>
  fenceFromP2 s p2

/-- `s.match(fenceRegex)` restricted to what the caller uses: `none` when
the regex does not match, otherwise the contents of capture group 2. -/
def fenceMatch (s : List Char) : Option (List Char) :=
  (fenceSearch s).head?.map (fun br => (s.drop br.1).take (br.2 - br.1))

/-- Lines 48–53 of `geminiService.ts`:
`let jsonStr = response.text.trim();` then replace `jsonStr` by
`match[2].trim()` when the regex matched and `match[2]` is truthy
(a non-empty capture). -/
def deFence (l : List Char) : List Char :=
  let t := jsTrimL l
  match fenceMatch t with
  | some body => if body.isEmpty then t else jsTrimL body
  | none => t

/-! ## Elementary facts about the character classes -/

theorem isJsSpace_nl : isJsSpace '\n' = true := by decide

theorem isWordChar_bq : isWordChar bq = false := by decide

theorem isJsSpace_bq : isJsSpace bq = false := by decide

theorem bq_ne_nl : bq ≠ '\n' := by decide

/-! ## Facts about `runLen`, `dropTrail`, `jsTrimL` -/

theorem runLen_nil (p : Char → Bool) : runLen p [] = 0 := rfl

theorem runLen_cons (p : Char → Bool) (c : Char) (l : List Char) :
    runLen p (c :: l) = if p c then runLen p l + 1 else 0 := by
  simp only [runLen, List.takeWhile_cons]
  by_cases h : p c <;> simp [h]

theorem runLen_le (p : Char → Bool) (l : List Char) : runLen p l ≤ l.length := by
  induction l with
  | nil => simp [runLen]
  | cons c l ih =>
    rw [runLen_cons]
    by_cases h : p c <;> simp [h] <;> omega

theorem runLen_sat (p : Char → Bool) (l : List Char) (i : Nat)
    (h : i < runLen p l) : ∃ c, l[i]? = some c ∧ p c = true := by
  induction l generalizing i with
  | nil => simp [runLen] at h
  | cons c l ih =>
    rw [runLen_cons] at h
    by_cases hc : p c
    · simp only [hc, if_true] at h
      cases i with
      | zero => exact ⟨c, by simp, hc⟩
      | succ j =>
        obtain ⟨d, hd, hpd⟩ := ih j (by omega)
        exact ⟨d, by simpa using hd, hpd⟩
    · simp [hc] at h

theorem runLen_stop (p : Char → Bool) (l : List Char)
    (h : runLen p l < l.length) :
    ∃ c, l[runLen p l]? = some c ∧ p c = false := by
  induction l with
  | nil => simp at h
  | cons c l ih =>
    rw [runLen_cons] at h ⊢
    by_cases hc : p c
    · rw [if_pos hc] at h ⊢
      obtain ⟨d, hd, hpd⟩ := ih (by simp at h; omega)
      exact ⟨d, by simpa using hd, hpd⟩
    · rw [if_neg hc] at h ⊢
      exact ⟨c, by simp, by simpa using hc⟩

theorem runLen_ge (p : Char → Bool) (l : List Char) (k : Nat)
    (hk : k ≤ l.length)
    (h : ∀ i, i < k → ∀ c, l[i]? = some c → p c = true) :
    k ≤ runLen p l := by
  induction l generalizing k with
  | nil => simp at hk; omega
  | cons c l ih =>
    cases k with
    | zero => omega
    | succ m =>
      have hc : p c = true := h 0 (by omega) c (by simp)
      rw [runLen_cons, hc, if_pos rfl]
      have := ih m (by simpa using hk)
        (fun i hi d hd => h (i + 1) (by omega) d (by simpa using hd))
      omega

theorem runLen_append_all (p : Char → Bool) (l₁ l₂ : List Char)
    (h : ∀ c ∈ l₁, p c = true) :
    runLen p (l₁ ++ l₂) = l₁.length + runLen p l₂ := by
  induction l₁ with
  | nil => simp
  | cons c l ih =>
    have hc : p c = true := h c (by simp)
    simp only [List.cons_append, runLen_cons, hc, if_true, List.length_cons]
    rw [ih (fun d hd => h d (by simp [hd]))]
    omega

theorem runLen_all (p : Char → Bool) (l : List Char)
    (h : ∀ c ∈ l, p c = true) : runLen p l = l.length := by
  have := runLen_append_all p l [] h
  simpa using this

theorem dropWhile_eq_drop (p : Char → Bool) (l : List Char) :
    l.dropWhile p = l.drop (runLen p l) := by
  induction l with
  | nil => rfl
  | cons c l ih =>
    rw [runLen_cons, List.dropWhile_cons]
    by_cases h : p c <;> simp [h, ih]

theorem dropTrail_eq_take (p : Char → Bool) (l : List Char) :
    dropTrail p l = l.take (l.length - runLen p l.reverse) := by
  rw [dropTrail, dropWhile_eq_drop, List.drop_reverse, List.reverse_reverse]

theorem takeWhile_eq_take (p : Char → Bool) (l : List Char) :
    l.takeWhile p = l.take (runLen p l) := by
  induction l with
  | nil => rfl
  | cons c l ih =>
    rw [runLen_cons, List.takeWhile_cons]
    by_cases h : p c <;> simp [h, ih]

theorem length_dropTrail_le (p : Char → Bool) (l : List Char) :
    (dropTrail p l).length ≤ l.length := by
  rw [dropTrail_eq_take]
  simp

theorem length_dropTrail_eq (p : Char → Bool) (l : List Char) :
    (dropTrail p l).length = l.length - runLen p l.reverse := by
  have hk : runLen p l.reverse ≤ l.length := by
    have := runLen_le p l.reverse
    simpa using this
  rw [dropTrail_eq_take]
  simp [Nat.sub_le]

theorem take_dropTrail_length (p : Char → Bool) (l : List Char) :
    l.take ((dropTrail p l).length) = dropTrail p l := by
  rw [length_dropTrail_eq, dropTrail_eq_take]

theorem dropTrail_drop_sat (p : Char → Bool) (l : List Char) :
    ∀ c ∈ l.drop ((dropTrail p l).length), p c = true := by
  intro c hc
  rw [length_dropTrail_eq] at hc
  have hk : runLen p l.reverse ≤ l.length := by
    have := runLen_le p l.reverse; simpa using this
  have hdrop : l.drop (l.length - runLen p l.reverse) =
      (l.reverse.take (runLen p l.reverse)).reverse := by
    rw [List.take_reverse, List.reverse_reverse]
  rw [hdrop, ← takeWhile_eq_take] at hc
  exact List.mem_takeWhile_imp (List.mem_reverse.mp hc)

theorem dropWhile_ne_nil_head (p : Char → Bool) (l : List Char)
    (h : l.dropWhile p ≠ []) :
    ∃ c rest, l.dropWhile p = c :: rest ∧ p c = false := by
  induction l with
  | nil => simp at h
  | cons c l ih =>
    rw [List.dropWhile_cons] at h ⊢
    by_cases hc : p c
    · rw [if_pos hc] at h ⊢
      exact ih h
    · rw [if_neg hc] at h ⊢
      exact ⟨c, l, rfl, by simpa using hc⟩

theorem dropTrail_last_not (p : Char → Bool) (l : List Char)
    (h : dropTrail p l ≠ []) :
    ∃ c, (dropTrail p l)[(dropTrail p l).length - 1]? = some c ∧ p c = false := by
  have h' : l.reverse.dropWhile p ≠ [] := by
    intro he
    exact h (by simp [dropTrail, he])
  obtain ⟨c, rest, hcr, hpc⟩ := dropWhile_ne_nil_head p l.reverse h'
  refine ⟨c, ?_, hpc⟩
  rw [dropTrail, hcr]
  simp only [List.reverse_cons, List.length_append, List.length_reverse,
    List.length_cons, List.length_nil]
  have : rest.reverse.length = rest.length := List.length_reverse rest
  rw [show rest.length + (0 + 1) - 1 = rest.reverse.length by omega]
  exact List.getElem?_concat_length rest.reverse c

theorem dropWhile_all_append (p : Char → Bool) (sfx m : List Char)
    (h : ∀ c ∈ sfx, p c = true) :
    (sfx ++ m).dropWhile p = m.dropWhile p := by
  induction sfx with
  | nil => rfl
  | cons c sfx ih =>
    rw [List.cons_append, List.dropWhile_cons, if_pos (h c (by simp))]
    exact ih (fun d hd => h d (by simp [hd]))

theorem dropTrail_append_sat (p : Char → Bool) (l sfx : List Char)
    (h : ∀ c ∈ sfx, p c = true) :
    dropTrail p (l ++ sfx) = dropTrail p l := by
  rw [dropTrail, dropTrail, List.reverse_append]
  rw [dropWhile_all_append p sfx.reverse l.reverse
    (fun c hc => h c (List.mem_reverse.mp hc))]

theorem dropTrail_cons_not (p : Char → Bool) (c : Char) (l : List Char)
    (h : p c = false) :
    dropTrail p (c :: l) = c :: dropTrail p l := by
  rw [dropTrail, dropTrail, List.reverse_cons, List.dropWhile_append]
  by_cases he : (l.reverse.dropWhile p).isEmpty
  · rw [if_pos he]
    rw [List.isEmpty_iff] at he
    rw [he]
    simp [List.dropWhile_cons, h]
  · rw [if_neg he]
    simp

theorem dropWhile_cons_not (p : Char → Bool) (c : Char) (l : List Char)
    (h : p c = false) :
    (c :: l).dropWhile p = c :: l := by
  rw [List.dropWhile_cons, if_neg (by simp [h])]

theorem jsTrimL_nil : jsTrimL [] = [] := rfl

theorem jsTrimL_head_not (l : List Char) (h : jsTrimL l ≠ []) :
    ∃ c, (jsTrimL l)[0]? = some c ∧ isJsSpace c = false := by
  have hdw : l.dropWhile isJsSpace ≠ [] := by
    intro he
    rw [jsTrimL, he] at h
    exact h rfl
  obtain ⟨c, rest, hcr, hpc⟩ := dropWhile_ne_nil_head isJsSpace l hdw
  refine ⟨c, ?_, hpc⟩
  rw [jsTrimL, hcr, dropTrail_cons_not _ _ _ hpc]
  simp

theorem jsTrimL_last_not (l : List Char) (h : jsTrimL l ≠ []) :
    ∃ c, (jsTrimL l)[(jsTrimL l).length - 1]? = some c ∧ isJsSpace c = false := by
  exact dropTrail_last_not isJsSpace (l.dropWhile isJsSpace) h

theorem jsTrimL_eq_self (m : List Char)
    (h1 : ∀ c, m[0]? = some c → isJsSpace c = false)
    (h2 : ∀ c, m[m.length - 1]? = some c → isJsSpace c = false) :
    jsTrimL m = m := by
  cases m with
  | nil => rfl
  | cons c rest =>
    have hc : isJsSpace c = false := h1 c (by simp)
    rw [jsTrimL, dropWhile_cons_not _ _ _ hc]
    have hrev : (c :: rest).reverse ≠ [] := by simp
    obtain ⟨d, hd⟩ : ∃ d, (c :: rest).reverse[0]? = some d := by
      cases hx : (c :: rest).reverse with
      | nil => exact absurd hx hrev
      | cons d tl => exact ⟨d, by simp [hx]⟩
    have hd' : (c :: rest)[(c :: rest).length - 1]? = some d := by
      rw [← hd, List.getElem?_reverse (by simp)]
      congr 1
    have hpd : isJsSpace d = false := h2 d hd'
    have hrun : runLen isJsSpace (c :: rest).reverse = 0 := by
      cases hx : (c :: rest).reverse with
      | nil => exact absurd hx hrev
      | cons e tl =>
        have : e = d := by
          rw [hx] at hd
          simpa using hd
        rw [runLen_cons, this, hpd]
        simp
    rw [dropTrail_eq_take, hrun]
    simp

theorem jsTrimL_idem (l : List Char) : jsTrimL (jsTrimL l) = jsTrimL l := by
  by_cases h : jsTrimL l = []
  · rw [h]; rfl
  · obtain ⟨c, hc0, hcp⟩ := jsTrimL_head_not l h
    obtain ⟨d, hd0, hdp⟩ := jsTrimL_last_not l h
    exact jsTrimL_eq_self _
      (fun e he => by rw [hc0] at he; cases he; exact hcp)
      (fun e he => by rw [hd0] at he; cases he; exact hdp)

/-! ## Generic lemmas about depth-first search over candidate lists -/

theorem head?_flatMap {α β : Type} (l : List α) (f : α → List β) :
    (l.flatMap f).head? = l.findSome? (fun x => (f x).head?) := by
  induction l with
  | nil => rfl
  | cons a l ih =>
    rw [List.flatMap_cons, List.head?_append, ih, List.findSome?_cons]
    cases hx : (f a).head? <;> simp [Option.or, hx]

theorem findSome?_asc_min {β : Type} (f : Nat → Option β) (a m k : Nat) (y : β)
    (hm : m ≤ k)
    (h0 : ∀ j, j < m → f (a + j) = none) (hy : f (a + m) = some y) :
    ((ascRange k).map (fun j => a + j)).findSome? f = some y := by
  have hadd : m + (k + 1 - m) = k + 1 := by omega
  have hsplit : ascRange k = List.range m ++ (List.range (k + 1 - m)).map (m + ·) := by
    conv_lhs => rw [ascRange, ← hadd, List.range_add]
  rw [hsplit, List.map_append, List.findSome?_append]
  have h1 : ((List.range m).map (fun j => a + j)).findSome? f = none := by
    rw [List.findSome?_eq_none]
    intro x hx
    simp only [List.mem_map, List.mem_range] at hx
    obtain ⟨j, hj, rfl⟩ := hx
    exact h0 j hj
  rw [h1]
  have hk1 : k + 1 - m = (k - m) + 1 := by omega
  rw [hk1, List.range_succ_eq_map]
  simp only [List.map_cons, List.map_map, List.findSome?_cons, Function.comp,
    Nat.add_zero]
  rw [hy]
  rfl

theorem descRange_eq_cons (k : Nat) : descRange k = k :: (List.range k).reverse := by
  rw [descRange, List.range_succ, List.reverse_append]
  rfl

theorem starDesc_eq_cons (cls : Char → Bool) (s : List Char) (p : Nat) :
    starDesc cls s p = (p + runLen cls (s.drop p)) ::
      ((List.range (runLen cls (s.drop p))).reverse.map (fun t => p + t)) := by
  rw [starDesc, descRange_eq_cons]
  rfl

theorem mem_starDesc {cls : Char → Bool} {s : List Char} {p q : Nat}
    (h : q ∈ starDesc cls s p) :
    ∃ t, t ≤ runLen cls (s.drop p) ∧ q = p + t := by
  simp only [starDesc, descRange, List.mem_map, List.mem_reverse, List.mem_range] at h
  obtain ⟨t, ht, rfl⟩ := h
  exact ⟨t, by omega, rfl⟩

theorem starDesc_mem_intro {cls : Char → Bool} {s : List Char} {p t : Nat}
    (h : t ≤ runLen cls (s.drop p)) : p + t ∈ starDesc cls s p := by
  simp only [starDesc, descRange, List.mem_map, List.mem_reverse, List.mem_range]
  exact ⟨t, by omega, rfl⟩

theorem mem_lazyAsc {s : List Char} {b r : Nat} (h : r ∈ lazyAsc s b) :
    ∃ j, j ≤ s.length - b ∧ r = b + j := by
  simp only [lazyAsc, ascRange, List.mem_map, List.mem_range] at h
  obtain ⟨j, hj, rfl⟩ := h
  exact ⟨j, by omega, rfl⟩

theorem mem_optNl {s : List Char} {p q : Nat} (h : q ∈ optNl s p) :
    q = p ∨ (q = p + 1 ∧ s[p]? = some '\n') := by
  rw [optNl] at h
  by_cases hc : s[p]? == some '\n'
  · rw [if_pos hc] at h
    simp only [List.mem_cons, List.not_mem_nil, or_false] at h
    rcases h with h | h
    · exact Or.inr ⟨h, by simpa using hc⟩
    · exact Or.inl h
  · rw [if_neg hc] at h
    simp only [List.mem_singleton] at h
    exact Or.inl h

theorem self_mem_optNl (s : List Char) (p : Nat) : p ∈ optNl s p := by
  rw [optNl]
  by_cases hc : s[p]? == some '\n'
  · rw [if_pos hc]; simp
  · rw [if_neg hc]; simp

theorem optNl_eq_single {s : List Char} {p : Nat}
    (h : s[p]? ≠ some '\n') : optNl s p = [p] := by
  rw [optNl, if_neg (by simpa using h)]

theorem mem_lit3 {s : List Char} {p q : Nat} (h : q ∈ lit3 s p) :
    isB3At s p = true ∧ q = p + 3 := by
  rw [lit3] at h
  by_cases hc : isB3At s p
  · rw [if_pos hc] at h
    simp only [List.mem_singleton] at h
    exact ⟨hc, h⟩
  · rw [if_neg hc] at h
    simp at h

/-! ## Characterizing the tail of the regex -/

/-- The suffix condition under which `\n?\s*` ++ three backticks ++ `$`
matches starting at position `r`: everything from `r` up to the final three
characters is whitespace, and the final three characters are backticks. -/
def tailCond (s : List Char) (r : Nat) : Prop :=
  r + 3 ≤ s.length ∧
  (∀ i, r ≤ i → i + 3 < s.length → ∀ c, s[i]? = some c → isJsSpace c = true) ∧
  isB3At s (s.length - 3) = true

theorem fenceTail_mem {s : List Char} {b r : Nat} {x : Nat × Nat}
    (hx : x ∈ fenceTail s b r) : x = (b, r) := by
  simp only [fenceTail, List.mem_flatMap] at hx
  obtain ⟨p6, _, p7, _, p8, _, hx⟩ := hx
  by_cases hc : p8 == s.length
  · rw [if_pos hc] at hx
    simpa using hx
  · rw [if_neg hc] at hx
    simp at hx

theorem fenceTail_ne_nil {s : List Char} {b r : Nat} (h : tailCond s r) :
    fenceTail s b r ≠ [] := by
  obtain ⟨hr3, hsp, hb3⟩ := h
  have hmem : (b, r) ∈ fenceTail s b r := by
    simp only [fenceTail, List.mem_flatMap]
    refine ⟨r, self_mem_optNl s r, s.length - 3, ?_, s.length, ?_, ?_⟩
    · have ht : s.length - 3 - r ≤ runLen isJsSpace (s.drop r) := by
        apply runLen_ge
        · simp; omega
        · intro i hi c hc
          rw [List.getElem?_drop] at hc
          exact hsp (r + i) (by omega) (by omega) c hc
      have := starDesc_mem_intro (s := s) (p := r) ht
      rwa [show r + (s.length - 3 - r) = s.length - 3 by omega] at this
    · rw [lit3, if_pos hb3]
      simp
      omega
    · rw [if_pos (by simp)]
      simp
  intro he
  rw [he] at hmem
  simp at hmem

theorem fenceTail_eq_nil {s : List Char} {b r : Nat} (h : ¬ tailCond s r) :
    fenceTail s b r = [] := by
  by_contra hne
  obtain ⟨x, hx⟩ := List.exists_mem_of_ne_nil _ hne
  simp only [fenceTail, List.mem_flatMap] at hx
  obtain ⟨p6, hp6, p7, hp7, p8, hp8, hxe⟩ := hx
  have h8 : p8 = s.length := by
    by_cases hc : p8 == s.length
    · simpa using hc
    · rw [if_neg hc] at hxe
      simp at hxe
  obtain ⟨hb3, h83⟩ := mem_lit3 hp8
  obtain ⟨t, ht, h7⟩ := mem_starDesc hp7
  have h73 : p7 = s.length - 3 := by omega
  have hp6r : p6 = r ∨ (p6 = r + 1 ∧ s[r]? = some '\n') := mem_optNl hp6
  apply h
  refine ⟨?_, ?_, by rwa [h73] at hb3⟩
  · rcases hp6r with rfl | ⟨rfl, _⟩ <;> omega
  · intro i hi hi3 c hc
    have hin3 : i < s.length - 3 := by omega
    by_cases hip : p6 ≤ i
    · have hidx : i - p6 < runLen isJsSpace (s.drop p6) := by omega
      obtain ⟨d, hd, hpd⟩ := runLen_sat _ _ _ hidx
      rw [List.getElem?_drop] at hd
      rw [show p6 + (i - p6) = i by omega] at hd
      rw [hc] at hd
      cases hd
      exact hpd
    · rcases hp6r with rfl | ⟨rfl, hnl⟩
      · omega
      · have : i = r := by omega
        subst this
        rw [hc] at hnl
        cases hnl
        exact isJsSpace_nl

theorem head?_eq_of_all_eq {α : Type} {l : List α} {x : α} (hne : l ≠ [])
    (hall : ∀ y ∈ l, y = x) : l.head? = some x := by
  cases l with
  | nil => exact absurd rfl hne
  | cons a t =>
    rw [List.head?_cons, hall a (by simp)]

theorem fenceTail_head?_pos {s : List Char} {b r : Nat} (h : tailCond s r) :
    (fenceTail s b r).head? = some (b, r) :=
  head?_eq_of_all_eq (fenceTail_ne_nil h) (fun _ hy => fenceTail_mem hy)

theorem fenceTail_head?_neg {s : List Char} {b r : Nat} (h : ¬ tailCond s r) :
    (fenceTail s b r).head? = none := by
  rw [fenceTail_eq_nil h]
  rfl

/-! ## Closed form of the fence match -/

/-- The characters between the start of capture group 2 at `b` and the
closing backticks. -/
def fenceRegion (s : List Char) (b : Nat) : List Char :=
  (s.drop b).take (s.length - 3 - b)

/-- Length of capture group 2 when it starts at `b`: the lazy `(.*?)` stops
as soon as only whitespace remains before the closing backticks. -/
def fenceCapLen (s : List Char) (b : Nat) : Nat :=
  (dropTrail isJsSpace (fenceRegion s b)).length

theorem isB3At_fst {s : List Char} {p : Nat} (h : isB3At s p = true) :
    s[p]? = some bq := by
  simp only [isB3At, Bool.and_eq_true, beq_iff_eq] at h
  exact h.1.1

theorem run_stops_at (cls : Char → Bool) (s : List Char) (a : Nat)
    (ha : a + 3 ≤ s.length) (hend : isB3At s (s.length - 3) = true)
    (hcls : cls bq = false) :
    a + runLen cls (s.drop a) ≤ s.length - 3 := by
  by_contra hgt
  have hidx : s.length - 3 - a < runLen cls (s.drop a) := by omega
  obtain ⟨c, hc, hpc⟩ := runLen_sat _ _ _ hidx
  rw [List.getElem?_drop, show a + (s.length - 3 - a) = s.length - 3 by omega] at hc
  rw [isB3At_fst hend] at hc
  cases hc
  rw [hcls] at hpc
  cases hpc

theorem length_fenceRegion (s : List Char) (b : Nat) (hb : b + 3 ≤ s.length) :
    (fenceRegion s b).length = s.length - 3 - b := by
  simp only [fenceRegion, List.length_take, List.length_drop]
  omega

theorem fenceFromB_head? (s : List Char) (b : Nat) (hb : b + 3 ≤ s.length)
    (hend : isB3At s (s.length - 3) = true) :
    (fenceFromB s b).head? = some (b, b + fenceCapLen s b) := by
  have hreg : (fenceRegion s b).length = s.length - 3 - b :=
    length_fenceRegion s b hb
  have hL : fenceCapLen s b ≤ s.length - 3 - b := by
    rw [← hreg]
    exact length_dropTrail_le _ _
  rw [fenceFromB, head?_flatMap, lazyAsc]
  apply findSome?_asc_min _ b (fenceCapLen s b) (s.length - b) _ (by omega)
  · intro j hj
    apply fenceTail_head?_neg
    rintro ⟨-, hsp, -⟩
    have hL1 : 1 ≤ fenceCapLen s b := by omega
    have hne : dropTrail isJsSpace (fenceRegion s b) ≠ [] := by
      intro he
      rw [fenceCapLen, he] at hL1
      simp at hL1
    obtain ⟨c, hc, hpc⟩ := dropTrail_last_not isJsSpace (fenceRegion s b) hne
    rw [← fenceCapLen] at hc
    have hc1 : (fenceRegion s b)[fenceCapLen s b - 1]? = some c := by
      rw [← hc, ← take_dropTrail_length isJsSpace (fenceRegion s b),
        List.getElem?_take, if_pos (by rw [← fenceCapLen]; omega)]
    have hc2 : s[b + (fenceCapLen s b - 1)]? = some c := by
      rw [← List.getElem?_drop]
      rw [fenceRegion, List.getElem?_take, if_pos (by omega)] at hc1
      exact hc1
    have := hsp (b + (fenceCapLen s b - 1)) (by omega) (by omega) c hc2
    rw [hpc] at this
    cases this
  · apply fenceTail_head?_pos
    refine ⟨by omega, ?_, hend⟩
    intro i hi hi3 c hc
    have hcr : (fenceRegion s b)[i - b]? = some c := by
      rw [fenceRegion, List.getElem?_take, if_pos (by omega), List.getElem?_drop,
        show b + (i - b) = i by omega]
      exact hc
    have hmem : c ∈ (fenceRegion s b).drop (fenceCapLen s b) := by
      have hidx : ((fenceRegion s b).drop (fenceCapLen s b))[i - b - fenceCapLen s b]? =
          some c := by
        rw [List.getElem?_drop, show fenceCapLen s b + (i - b - fenceCapLen s b) =
          i - b by omega]
        exact hcr
      exact List.getElem?_mem hidx
    exact dropTrail_drop_sat isJsSpace (fenceRegion s b) c hmem

theorem fenceFromP2_head? (s : List Char) (p2 : Nat) (hp2 : p2 + 3 ≤ s.length)
    (hend : isB3At s (s.length - 3) = true) :
    (fenceFromP2 s p2).head? =
      some (p2 + runLen isJsSpace (s.drop p2),
        p2 + runLen isJsSpace (s.drop p2) +
          fenceCapLen s (p2 + runLen isJsSpace (s.drop p2))) := by
  have hstop : p2 + runLen isJsSpace (s.drop p2) ≤ s.length - 3 :=
    run_stops_at isJsSpace s p2 hp2 hend isJsSpace_bq
  set p3 := p2 + runLen isJsSpace (s.drop p2) with hp3
  have hp3n : p3 < s.length := by omega
  have hnotnl : s[p3]? ≠ some '\n' := by
    have hlt : runLen isJsSpace (s.drop p2) < (s.drop p2).length := by
      simp only [List.length_drop]
      omega
    obtain ⟨c, hc, hpc⟩ := runLen_stop isJsSpace (s.drop p2) hlt
    rw [List.getElem?_drop] at hc
    rw [← hp3] at hc
    rw [hc]
    intro he
    cases he
    rw [isJsSpace_nl] at hpc
    cases hpc
  rw [fenceFromP2, head?_flatMap, starDesc_eq_cons, List.findSome?_cons, ← hp3]
  have hinner : ((optNl s p3).flatMap fun b => fenceFromB s b).head? =
      some (p3, p3 + fenceCapLen s p3) := by
    rw [optNl_eq_single hnotnl]
    simp only [List.flatMap_cons, List.flatMap_nil, List.append_nil]
    exact fenceFromB_head? s p3 (by omega) hend
  rw [hinner]

/-- Shape of the strings the fence regex can match: three backticks at the
start, three backticks at the very end, and at least six characters so the
two runs of backticks do not overlap. -/
def hasFenceShape (s : List Char) : Bool :=
  isB3At s 0 && isB3At s (s.length - 3) && decide (6 ≤ s.length)

/-- Capture group 2 on a matching string: skip the opening backticks, the
maximal `\w` run and the maximal `\s` run, then capture everything up to
the closing backticks minus trailing whitespace. -/
def captureOf (s : List Char) : List Char :=
  dropTrail isJsSpace
    (fenceRegion s (3 + runLen isWordChar (s.drop 3) +
      runLen isJsSpace (s.drop (3 + runLen isWordChar (s.drop 3)))))

/-- Closed form of the backtracking fence match: the regex matches exactly
the strings of `hasFenceShape`, and the capture is `captureOf`. -/
theorem fenceMatch_eq (s : List Char) :
    fenceMatch s = if hasFenceShape s then some (captureOf s) else none := by
  by_cases h0 : isB3At s 0 = true
  · by_cases hok : isB3At s (s.length - 3) = true ∧ 6 ≤ s.length
    · obtain ⟨hend, h6⟩ := hok
      have hshape : hasFenceShape s = true := by
        simp [hasFenceShape, h0, hend, h6]
      rw [if_pos hshape]
      have hW : 3 + runLen isWordChar (s.drop 3) ≤ s.length - 3 :=
        run_stops_at isWordChar s 3 (by omega) hend isWordChar_bq
      set W := runLen isWordChar (s.drop 3) with hWdef
      set b := 3 + W + runLen isJsSpace (s.drop (3 + W)) with hbdef
      have hb : b ≤ s.length - 3 :=
        run_stops_at isJsSpace s (3 + W) (by omega) hend isJsSpace_bq
      have hsearch : (fenceSearch s).head? = some (b, b + fenceCapLen s b) := by
        rw [fenceSearch, lit3, if_pos h0]
        simp only [List.flatMap_cons, List.flatMap_nil, List.append_nil]
        rw [head?_flatMap, List.findSome?_append, starDesc_eq_cons,
          List.findSome?_cons]
        rw [show (0 : Nat) + 3 = 3 from rfl]
        rw [fenceFromP2_head? s (3 + W) (by omega) hend]
        rfl
      rw [fenceMatch, hsearch]
      simp only [Option.map_some']
      congr 1
      have hL : fenceCapLen s b ≤ s.length - 3 - b := by
        have := length_dropTrail_le isJsSpace (fenceRegion s b)
        rw [length_fenceRegion s b (by omega)] at this
        exact le_trans (le_of_eq rfl) this
      rw [show b + fenceCapLen s b - b = fenceCapLen s b by omega]
      rw [captureOf, ← hWdef, ← hbdef, ← take_dropTrail_length isJsSpace
        (fenceRegion s b), ← fenceCapLen, fenceRegion, List.take_take]
      rw [min_eq_left hL]
    · have hshape : hasFenceShape s = false := by
        rw [hasFenceShape, h0]
        by_cases h1 : isB3At s (s.length - 3) = true
        · have h6 : ¬ 6 ≤ s.length := fun h6 => hok ⟨h1, h6⟩
          simp [h1, h6]
        · rw [Bool.not_eq_true] at h1
          simp [h1]
      rw [if_neg (by simp [hshape])]
      have hfail : ∀ p2, 3 ≤ p2 → fenceFromP2 s p2 = [] := by
        intro p2 hp2
        rw [fenceFromP2, List.flatMap_eq_nil_iff]
        intro p3 hp3
        rw [List.flatMap_eq_nil_iff]
        intro b hb
        rw [fenceFromB, List.flatMap_eq_nil_iff]
        intro r hr
        apply fenceTail_eq_nil
        rintro ⟨hr3, -, hb3⟩
        obtain ⟨t, -, rfl⟩ := mem_starDesc hp3
        have hbge : p2 + t ≤ b := by
          rcases mem_optNl hb with rfl | ⟨rfl, -⟩ <;> omega
        obtain ⟨j, -, rfl⟩ := mem_lazyAsc hr
        exact hok ⟨hb3, by omega⟩
      have hnil : fenceSearch s = [] := by
        rw [fenceSearch, List.flatMap_eq_nil_iff]
        intro p1 hp1
        obtain ⟨-, rfl⟩ := mem_lit3 hp1
        rw [List.flatMap_eq_nil_iff]
        intro p2 hp2
        rcases List.mem_append.mp hp2 with hp2 | hp2
        · obtain ⟨t, -, rfl⟩ := mem_starDesc hp2
          exact hfail _ (by omega)
        · simp only [List.mem_singleton] at hp2
          subst hp2
          exact hfail _ (by omega)
      rw [fenceMatch, hnil]
      rfl
  · have hshape : hasFenceShape s = false := by
      rw [Bool.not_eq_true] at h0
      simp [hasFenceShape, h0]
    rw [if_neg (by simp [hshape])]
    rw [Bool.not_eq_true] at h0
    rw [fenceMatch, fenceSearch, lit3, if_neg (by simp [h0])]
    rfl


/-! ## Structural decompositions of fenced strings -/

/-- Three backticks, as a string fragment. -/
def b3 : List Char := [bq, bq, bq]

theorem isWordChar_nl : isWordChar '\n' = false := by decide

theorem space_not_word (c : Char) (h : isJsSpace c = true) :
    isWordChar c = false := by
  simp only [isJsSpace, Bool.or_eq_true, Bool.and_eq_true, decide_eq_true_eq,
    beq_iff_eq] at h
  simp only [isWordChar, Bool.or_eq_false_iff, Bool.and_eq_false_iff,
    decide_eq_false_iff_not, beq_eq_false_iff_ne, ne_eq]
  omega

theorem runLen_eq_length_imp (p : Char → Bool) (l : List Char)
    (h : runLen p l = l.length) : ∀ c ∈ l, p c = true := by
  induction l with
  | nil => simp
  | cons c l ih =>
    rw [runLen_cons] at h
    by_cases hc : p c
    · rw [if_pos hc] at h
      intro d hd
      rcases List.mem_cons.mp hd with rfl | hd
      · exact hc
      · exact ih (by simpa using h) d hd
    · rw [if_neg hc] at h
      simp at h

theorem runLen_lt_of_mem_not {p : Char → Bool} {l : List Char} {c : Char}
    (hc : c ∈ l) (hpc : p c = false) : runLen p l < l.length := by
  rcases Nat.lt_or_ge (runLen p l) l.length with h | h
  · exact h
  · have heq : runLen p l = l.length := le_antisymm (runLen_le p l) h
    have := runLen_eq_length_imp p l heq c hc
    rw [hpc] at this
    cases this

theorem runLen_append_lt (p : Char → Bool) (l₁ l₂ : List Char)
    (h : runLen p l₁ < l₁.length) :
    runLen p (l₁ ++ l₂) = runLen p l₁ := by
  induction l₁ with
  | nil => simp at h
  | cons c l ih =>
    rw [List.cons_append, runLen_cons, runLen_cons]
    by_cases hc : p c
    · rw [if_pos hc, if_pos hc, ih (by rw [runLen_cons, if_pos hc] at h; simpa using h)]
    · rw [if_neg hc, if_neg hc]

theorem jsTrimL_ne_nil {l : List Char} {c : Char} (hc : c ∈ l)
    (hpc : isJsSpace c = false) : jsTrimL l ≠ [] := by
  intro he
  rw [jsTrimL, dropTrail] at he
  have h1 : (l.dropWhile isJsSpace).reverse.dropWhile isJsSpace = [] := by
    by_contra hne
    rw [← List.reverse_eq_nil_iff] at hne
    simp [he] at hne
  have h2 : ∀ d ∈ l.dropWhile isJsSpace, isJsSpace d = true := by
    intro d hd
    exact List.dropWhile_eq_nil_iff.mp h1 d (List.mem_reverse.mpr hd)
  have h3 : ∀ d ∈ l, isJsSpace d = true := by
    intro d hd
    rw [← List.takeWhile_append_dropWhile isJsSpace l] at hd
    rcases List.mem_append.mp hd with hd | hd
    · exact List.mem_takeWhile_imp hd
    · exact h2 d hd
  rw [h3 c hc] at hpc
  cases hpc

theorem isB3At_b3_prefix (l : List Char) : isB3At (b3 ++ l) 0 = true := by
  show isB3At (bq :: bq :: bq :: l) 0 = true
  simp [isB3At]

theorem isB3At_b3_suffix (pre : List Char) :
    isB3At (pre ++ b3) pre.length = true := by
  have hd : (pre ++ b3).drop pre.length = b3 := List.drop_left pre b3
  have key : ∀ i, i < 3 → (pre ++ b3)[pre.length + i]? = some bq := by
    intro i hi
    have := List.getElem?_drop (pre ++ b3) pre.length i
    rw [hd] at this
    rw [← this]
    interval_cases i <;> rfl
  have k0 := key 0 (by omega)
  have k1 := key 1 (by omega)
  have k2 := key 2 (by omega)
  rw [Nat.add_zero] at k0
  rw [isB3At]
  simp [k0, k1, k2]

/-- On a string of the exact shape
three backticks ++ word tag ++ newline ++ `mid` ++ three backticks,
with `mid` containing at least one non-whitespace character, the fence
regex matches and capture group 2 is `mid` with surrounding whitespace
trimmed. -/
theorem fenceMatch_decomp (tag mid : List Char)
    (htag : ∀ c ∈ tag, isWordChar c = true)
    (hmid : ∃ c ∈ mid, isJsSpace c = false) :
    fenceMatch ((b3 ++ tag) ++ ('\n' :: (mid ++ b3))) = some (jsTrimL mid) := by
  obtain ⟨c0, hc0, hc0p⟩ := hmid
  have hsR : runLen isJsSpace mid < mid.length := runLen_lt_of_mem_not hc0 hc0p
  have hlen : ((b3 ++ tag) ++ ('\n' :: (mid ++ b3))).length =
      tag.length + mid.length + 7 := by
    simp [b3]
    omega
  have hshape : hasFenceShape ((b3 ++ tag) ++ ('\n' :: (mid ++ b3))) = true := by
    have h0 : isB3At ((b3 ++ tag) ++ ('\n' :: (mid ++ b3))) 0 = true := by
      have hre : (b3 ++ tag) ++ ('\n' :: (mid ++ b3)) =
          b3 ++ (tag ++ ('\n' :: (mid ++ b3))) := by simp
      rw [hre]
      exact isB3At_b3_prefix _
    have hendpre := isB3At_b3_suffix ((b3 ++ tag) ++ ('\n' :: mid))
    have hplen : ((b3 ++ tag) ++ ('\n' :: mid)).length =
        tag.length + mid.length + 4 := by
      simp [b3]
      omega
    have hforms : ((b3 ++ tag) ++ ('\n' :: mid)) ++ b3 =
        (b3 ++ tag) ++ ('\n' :: (mid ++ b3)) := by simp
    rw [hplen, hforms] at hendpre
    rw [hasFenceShape, h0, hlen]
    rw [show tag.length + mid.length + 7 - 3 = tag.length + mid.length + 4 by omega]
    rw [hendpre]
    simp
  have hW : runLen isWordChar (((b3 ++ tag) ++ ('\n' :: (mid ++ b3))).drop 3) =
      tag.length := by
    have hre : (b3 ++ tag) ++ ('\n' :: (mid ++ b3)) =
        b3 ++ (tag ++ ('\n' :: (mid ++ b3))) := by simp
    rw [hre, List.drop_left' (show b3.length = 3 from rfl)]
    rw [runLen_append_all isWordChar tag _ htag, runLen_cons, isWordChar_nl]
    simp
  have hT : runLen isJsSpace
      (((b3 ++ tag) ++ ('\n' :: (mid ++ b3))).drop (3 + tag.length)) =
      1 + runLen isJsSpace mid := by
    rw [List.drop_left' (show ((b3 ++ tag)).length = 3 + tag.length by simp [b3]; omega)]
    rw [runLen_cons, isJsSpace_nl, if_pos rfl]
    rw [runLen_append_lt isJsSpace mid b3 hsR]
    omega
  rw [fenceMatch_eq, if_pos hshape, captureOf, hW, hT]
  rw [jsTrimL]
  congr 1
  rw [dropWhile_eq_drop, fenceRegion]
  have hsplit : (b3 ++ tag) ++ ('\n' :: (mid ++ b3)) =
      ((b3 ++ tag) ++ ['\n']) ++ (mid ++ b3) := by simp
  rw [hsplit]
  rw [show 3 + tag.length + (1 + runLen isJsSpace mid) =
      ((b3 ++ tag) ++ ['\n']).length + runLen isJsSpace mid by simp [b3]; omega]
  rw [List.drop_append, List.drop_append_of_le_length (le_of_lt hsR)]
  have hfin : (mid.drop (runLen isJsSpace mid)).length =
      (((b3 ++ tag) ++ ['\n']) ++ (mid ++ b3)).length - 3 -
        (((b3 ++ tag) ++ ['\n']).length + runLen isJsSpace mid) := by
    simp only [List.length_drop, List.length_append, List.length_cons,
      List.length_nil, b3]
    simp
    omega
  congr 1
  exact List.take_left' hfin

theorem runLen_b3_zero (p : Char → Bool) (h : p bq = false) (l : List Char) :
    runLen p (b3 ++ l) = 0 := by
  show runLen p (bq :: (bq :: bq :: l)) = 0
  rw [runLen_cons, h]
  simp

theorem runLen_b3_only (p : Char → Bool) (h : p bq = false) :
    runLen p b3 = 0 := by
  have := runLen_b3_zero p h []
  simpa using this

/-- On a string of the exact shape
three backticks ++ word tag ++ whitespace ++ three backticks (no
non-whitespace body at all) the regex matches with an empty capture
group 2. -/
theorem fenceMatch_empty_mid (tag w : List Char)
    (htag : ∀ c ∈ tag, isWordChar c = true)
    (hw : ∀ c ∈ w, isJsSpace c = true) :
    fenceMatch ((b3 ++ tag) ++ (w ++ b3)) = some [] := by
  have hlen : ((b3 ++ tag) ++ (w ++ b3)).length =
      tag.length + w.length + 6 := by
    simp [b3]
    omega
  have hshape : hasFenceShape ((b3 ++ tag) ++ (w ++ b3)) = true := by
    have h0 : isB3At ((b3 ++ tag) ++ (w ++ b3)) 0 = true := by
      have hre : (b3 ++ tag) ++ (w ++ b3) = b3 ++ (tag ++ (w ++ b3)) := by simp
      rw [hre]
      exact isB3At_b3_prefix _
    have hendpre := isB3At_b3_suffix ((b3 ++ tag) ++ w)
    have hplen : ((b3 ++ tag) ++ w).length = tag.length + w.length + 3 := by
      simp [b3]
    have hforms : ((b3 ++ tag) ++ w) ++ b3 = (b3 ++ tag) ++ (w ++ b3) := by simp
    rw [hplen, hforms] at hendpre
    rw [hasFenceShape, h0, hlen]
    rw [show tag.length + w.length + 6 - 3 = tag.length + w.length + 3 by omega]
    rw [hendpre]
    simp
  have hwb3 : runLen isWordChar (w ++ b3) = 0 := by
    cases w with
    | nil => exact runLen_b3_zero isWordChar isWordChar_bq []
    | cons c w' =>
      rw [List.cons_append, runLen_cons, space_not_word c (hw c (by simp))]
      simp
  have hW : runLen isWordChar (((b3 ++ tag) ++ (w ++ b3)).drop 3) =
      tag.length := by
    have hre : (b3 ++ tag) ++ (w ++ b3) = b3 ++ (tag ++ (w ++ b3)) := by simp
    rw [hre, List.drop_left' (show b3.length = 3 from rfl)]
    rw [runLen_append_all isWordChar tag _ htag, hwb3]
    omega
  have hT : runLen isJsSpace (((b3 ++ tag) ++ (w ++ b3)).drop (3 + tag.length)) =
      w.length := by
    rw [List.drop_left'
      (show ((b3 ++ tag)).length = 3 + tag.length by simp [b3]; omega)]
    rw [runLen_append_all isJsSpace w b3 hw, runLen_b3_only isJsSpace isJsSpace_bq]
    omega
  rw [fenceMatch_eq, if_pos hshape, captureOf, hW, hT]
  congr 1
  rw [fenceRegion]
  have htake : ((b3 ++ tag) ++ (w ++ b3)).length - 3 -
      (3 + tag.length + w.length) = 0 := by
    rw [hlen]
    omega
  rw [htake, List.take_zero]
  rfl

/-! ## Consequences for the de-fencing step -/

theorem deFence_eq (l : List Char) :
    deFence l = match fenceMatch (jsTrimL l) with
      | some body => if body.isEmpty then jsTrimL l else jsTrimL body
      | none => jsTrimL l := rfl

theorem deFence_nofence (l : List Char)
    (h : hasFenceShape (jsTrimL l) = false) :
    deFence l = jsTrimL l := by
  rw [deFence_eq, fenceMatch_eq, if_neg (by simp [h])]

theorem deFence_strip (l tag mid : List Char)
    (htag : ∀ c ∈ tag, isWordChar c = true)
    (hmid : ∃ c ∈ mid, isJsSpace c = false)
    (hdec : jsTrimL l = (b3 ++ tag) ++ ('\n' :: (mid ++ b3))) :
    deFence l = jsTrimL mid := by
  obtain ⟨c0, hc0, hc0p⟩ := hmid
  rw [deFence_eq, hdec, fenceMatch_decomp tag mid htag ⟨c0, hc0, hc0p⟩]
  have hne : ¬ ((jsTrimL mid).isEmpty = true) := by
    rw [List.isEmpty_iff]
    exact jsTrimL_ne_nil hc0 hc0p
  have hstep : (if (jsTrimL mid).isEmpty then
      ((b3 ++ tag) ++ ('\n' :: (mid ++ b3))) else jsTrimL (jsTrimL mid)) =
      jsTrimL mid := by
    rw [if_neg hne, jsTrimL_idem]
  exact hstep

theorem deFence_ws_fence (l tag w : List Char)
    (htag : ∀ c ∈ tag, isWordChar c = true)
    (hw : ∀ c ∈ w, isJsSpace c = true)
    (hdec : jsTrimL l = (b3 ++ tag) ++ (w ++ b3)) :
    deFence l = jsTrimL l := by
  rw [deFence_eq, hdec, fenceMatch_empty_mid tag w htag hw]
  rfl

theorem deFence_idem_of_unchanged (l : List Char) (h : deFence l = jsTrimL l) :
    deFence (deFence l) = deFence l := by
  rw [h]
  have h' : (match fenceMatch (jsTrimL l) with
      | some body => if body.isEmpty then jsTrimL l else jsTrimL body
      | none => jsTrimL l) = jsTrimL l := h
  show (match fenceMatch (jsTrimL (jsTrimL l)) with
      | some body => if body.isEmpty then jsTrimL (jsTrimL l) else jsTrimL body
      | none => jsTrimL (jsTrimL l)) = jsTrimL l
  rw [jsTrimL_idem]
  exact h'

/-! ## `JSON.parse`

A JavaScript value as produced by `JSON.parse`, with numbers as exact
rationals (see the header comment).  The parser follows the JSON grammar
that `JSON.parse` accepts: `ws value ws`, objects, arrays, strings with
escapes, strict number syntax, `true` / `false` / `null`.  Fuel bounds the
recursion depth; `2·length + 2` is more than any input can consume, since
every two fuel steps consume at least one character. -/

/-- A JSON number, as the exact decimal `mant · 10 ^ exp` denoted by the
numeric literal.  `JSON.parse` converts the literal to the nearest IEEE
double; that conversion is monotone and fixes `0` and `100`, so the
clamping logic behaves identically on the exact values, and every number
appearing in a concrete theorem below is exactly representable as a
double.  (Unlike `ℚ`, whose arithmetic does not reduce in the kernel,
this representation keeps every definition computable by `decide`.) -/
structure JNum where
  mant : ℤ
  exp : ℤ
deriving DecidableEq

/-- Numeric comparison of two decimals (the `≤` of the values they
denote), by scaling to a common exponent. -/
def JNum.le (a b : JNum) : Bool :=
  if a.exp ≤ b.exp then decide (a.mant ≤ b.mant * 10 ^ (b.exp - a.exp).toNat)
  else decide (a.mant * 10 ^ (a.exp - b.exp).toNat ≤ b.mant)

/-- The rational value a `JNum` denotes. -/
def JNum.toRat (a : JNum) : ℚ := (a.mant : ℚ) * (10 : ℚ) ^ a.exp

inductive Json where
  | null
  | bool (b : Bool)
  | num (q : JNum)
  | str (s : String)
  | arr (xs : List Json)
  | obj (kvs : List (String × Json))

/-! Decidable equality for `Json` (the automatic derivation does not
handle the nested lists; fuel keeps the recursion kernel-reducible). -/

mutual

def jeqF : Nat → Json → Json → Bool
  | 0, _, _ => false
  | fuel + 1, a, b =>
    match a, b with
    | .null, .null => true
    | .bool x, .bool y => x == y
    | .num x, .num y => decide (x = y)
    | .str x, .str y => x == y
    | .arr xs, .arr ys => jeqLF fuel xs ys
    | .obj xs, .obj ys => jeqOF fuel xs ys
    | _, _ => false

def jeqLF : Nat → List Json → List Json → Bool
  | 0, _, _ => false
  | _ + 1, [], [] => true
  | fuel + 1, x :: xs, y :: ys => jeqF fuel x y && jeqLF fuel xs ys
  | _ + 1, _, _ => false

def jeqOF : Nat → List (String × Json) → List (String × Json) → Bool
  | 0, _, _ => false
  | _ + 1, [], [] => true
  | fuel + 1, (k1, v1) :: xs, (k2, v2) :: ys =>
      k1 == k2 && jeqF fuel v1 v2 && jeqOF fuel xs ys
  | _ + 1, _, _ => false

end

theorem jeqF_iff_all : ∀ fuel : Nat,
    (∀ a b : Json, sizeOf b ≤ fuel → (jeqF fuel a b = true ↔ a = b)) ∧
    (∀ xs ys : List Json, sizeOf ys ≤ fuel →
      (jeqLF fuel xs ys = true ↔ xs = ys)) ∧
    (∀ xs ys : List (String × Json), sizeOf ys ≤ fuel →
      (jeqOF fuel xs ys = true ↔ xs = ys)) := by
  intro fuel
  induction fuel with
  | zero =>
    refine ⟨fun a b hb => absurd hb (by cases b <;> simp),
      fun xs ys hys => absurd hys (by cases ys <;> simp),
      fun xs ys hys => absurd hys (by cases ys <;> simp)⟩
  | succ fuel ih =>
    obtain ⟨ihv, ihl, iho⟩ := ih
    refine ⟨?_, ?_, ?_⟩
    · intro a b hb
      cases a with
      | null => cases b <;> simp [jeqF]
      | bool x => cases b <;> simp [jeqF]
      | num x => cases b <;> simp [jeqF]
      | str x => cases b <;> simp [jeqF]
      | arr xs =>
        cases b with
        | arr ys =>
          simp only [jeqF, Json.arr.injEq]
          exact ihl xs ys (by simp at hb; omega)
        | null => simp [jeqF]
        | bool y => simp [jeqF]
        | num y => simp [jeqF]
        | str y => simp [jeqF]
        | obj ys => simp [jeqF]
      | obj xs =>
        cases b with
        | obj ys =>
          simp only [jeqF, Json.obj.injEq]
          exact iho xs ys (by simp at hb; omega)
        | null => simp [jeqF]
        | bool y => simp [jeqF]
        | num y => simp [jeqF]
        | str y => simp [jeqF]
        | arr ys => simp [jeqF]
    · intro xs ys hys
      cases xs with
      | nil => cases ys <;> simp [jeqLF]
      | cons x xs =>
        cases ys with
        | nil => simp [jeqLF]
        | cons y ys =>
          simp only [jeqLF, Bool.and_eq_true, List.cons.injEq]
          rw [ihv x y (by simp at hys; omega), ihl xs ys (by simp at hys; omega)]
    · intro xs ys hys
      cases xs with
      | nil => cases ys <;> simp [jeqOF]
      | cons kv xs =>
        cases ys with
        | nil => cases kv; simp [jeqOF]
        | cons kv' ys =>
          cases kv with
          | mk k1 v1 =>
            cases kv' with
            | mk k2 v2 =>
              simp only [jeqOF, Bool.and_eq_true, List.cons.injEq,
                Prod.mk.injEq, beq_iff_eq]
              rw [ihv v1 v2 (by simp at hys; omega),
                iho xs ys (by simp at hys; omega)]

theorem json_eq_of_jeqF {a b : Json} {fuel : Nat}
    (hle : sizeOf b ≤ fuel) (h : jeqF fuel a b = true) : a = b :=
  ((jeqF_iff_all fuel).1 a b hle).mp h

/-- Equality test between an unknown `Option Json` (for example, a parser
output) and an expected value, kernel-computable thanks to the fuel. -/
def ojeqF (fuel : Nat) : Option Json → Option Json → Bool
  | some a, some b => jeqF fuel a b
  | none, none => true
  | _, _ => false

theorem option_eq_of_ojeqF {o : Option Json} {v : Json} {fuel : Nat}
    (hle : sizeOf v ≤ fuel) (h : ojeqF fuel o (some v) = true) : o = some v := by
  cases o with
  | none => simp [ojeqF] at h
  | some a => exact congrArg some (json_eq_of_jeqF hle (by simpa [ojeqF] using h))

/-- JSON inter-token whitespace skipping. -/
def skipWS (l : List Char) : List Char := l.dropWhile isJsonWS

/-- An ASCII decimal digit. -/
def jsonDigit (c : Char) : Bool := 48 ≤ c.toNat && c.toNat ≤ 57

/-- Value of a hexadecimal digit, if any. -/
def hexVal (c : Char) : Option Nat :=
  let n := c.toNat
  if 48 ≤ n && n ≤ 57 then some (n - 48)
  else if 65 ≤ n && n ≤ 70 then some (n - 55)
  else if 97 ≤ n && n ≤ 102 then some (n - 87)
  else none

/-- Numeric value of a digit string. -/
def digitsVal (l : List Char) : Nat :=
  l.foldl (fun a c => 10 * a + (c.toNat - 48)) 0

/-- Body of a JSON string literal after the opening quote: collect
characters, process escapes, stop at the closing quote, reject unescaped
control characters. -/
def parseStringRest (acc : List Char) : List Char → Option (String × List Char)
  | [] => none
  | c :: rest =>
    if c = '"' then some (String.mk acc.reverse, rest)
    else if c = '\\' then
      match rest with
      | [] => none
      | e :: rest2 =>
        if e = '"' then parseStringRest ('"' :: acc) rest2
        else if e = '\\' then parseStringRest ('\\' :: acc) rest2
        else if e = '/' then parseStringRest ('/' :: acc) rest2
        else if e = 'b' then parseStringRest ('\x08' :: acc) rest2
        else if e = 'f' then parseStringRest ('\x0c' :: acc) rest2
        else if e = 'n' then parseStringRest ('\n' :: acc) rest2
        else if e = 'r' then parseStringRest ('\r' :: acc) rest2
        else if e = 't' then parseStringRest ('\t' :: acc) rest2
        else if e = 'u' then
          match rest2 with
          | h1 :: h2 :: h3 :: h4 :: rest3 =>
            match hexVal h1, hexVal h2, hexVal h3, hexVal h4 with
            | some a, some b, some c', some d =>
              parseStringRest (Char.ofNat (((a * 16 + b) * 16 + c') * 16 + d) :: acc) rest3
            | _, _, _, _ => none
          | _ => none
        else none
    else if c.toNat < 32 then none
    else parseStringRest (c :: acc) rest

/-- A JSON number per the strict grammar of `JSON.parse`:
`-? (0 | [1-9][0-9]*) (. [0-9]+)? ([eE] [+-]? [0-9]+)?`, read as the exact
decimal `mant · 10 ^ exp` (the fraction digits lower the exponent). -/
def parseNumber (cs : List Char) : Option (JNum × List Char) :=
  let signSplit : Bool × List Char :=
    match cs with
    | '-' :: t => (true, t)
    | _ => (false, cs)
  let neg := signSplit.1
  let cs1 := signSplit.2
  let intPart : Option (List Char × List Char) :=
    match cs1 with
    | '0' :: t => some (['0'], t)
    | _ =>
      let ds := cs1.takeWhile jsonDigit
      if ds.isEmpty then none
      else some (ds, cs1.drop ds.length)
  match intPart with
  | none => none
  | some (ids, cs2) =>
    let fracPart : Option (List Char × List Char) :=
      match cs2 with
      | '.' :: t =>
        let ds := t.takeWhile jsonDigit
        if ds.isEmpty then none
        else some (ds, t.drop ds.length)
      | _ => some ([], cs2)
    match fracPart with
    | none => none
    | some (fds, cs3) =>
      let expPart : Option (ℤ × List Char) :=
        match cs3 with
        | 'e' :: t =>
          let esplit : Bool × List Char :=
            match t with
            | '+' :: u => (false, u)
            | '-' :: u => (true, u)
            | _ => (false, t)
          let ds := esplit.2.takeWhile jsonDigit
          if ds.isEmpty then none
          else some (if esplit.1 then -(digitsVal ds : ℤ) else (digitsVal ds : ℤ),
            esplit.2.drop ds.length)
        | 'E' :: t =>
          let esplit : Bool × List Char :=
            match t with
            | '+' :: u => (false, u)
            | '-' :: u => (true, u)
            | _ => (false, t)
          let ds := esplit.2.takeWhile jsonDigit
          if ds.isEmpty then none
          else some (if esplit.1 then -(digitsVal ds : ℤ) else (digitsVal ds : ℤ),
            esplit.2.drop ds.length)
        | _ => some (0, cs3)
      match expPart with
      | none => none
      | some (e, cs4) =>
        let mantNat : Nat := digitsVal (ids ++ fds)
        let mant : ℤ := if neg then -(mantNat : ℤ) else (mantNat : ℤ)
        some (⟨mant, e - (fds.length : ℤ)⟩, cs4)

mutual

/-- A JSON value; the input starts at a non-whitespace position. -/
def parseValue : Nat → List Char → Option (Json × List Char)
  | 0, _ => none
  | _ + 1, [] => none
  | fuel + 1, c :: rest =>
    if c = '{' then
      let r1 := skipWS rest
      if r1.head? = some '}' then some (.obj [], r1.tail)
      else parseMembers fuel r1 []
    else if c = '[' then
      let r1 := skipWS rest
      if r1.head? = some ']' then some (.arr [], r1.tail)
      else parseItems fuel r1 []
    else if c = '"' then
      (parseStringRest [] rest).map (fun sr => (Json.str sr.1, sr.2))
    else if c = 't' then
      if rest.take 3 = ['r', 'u', 'e'] then some (.bool true, rest.drop 3)
      else none
    else if c = 'f' then
      if rest.take 4 = ['a', 'l', 's', 'e'] then some (.bool false, rest.drop 4)
      else none
    else if c = 'n' then
      if rest.take 3 = ['u', 'l', 'l'] then some (.null, rest.drop 3)
      else none
    else if c == '-' || jsonDigit c then
      (parseNumber (c :: rest)).map (fun qr => (Json.num qr.1, qr.2))
    else none

/-- Members of an object after `{`, first key not yet consumed; keeps the
accumulated pairs in reverse order. -/
def parseMembers : Nat → List Char → List (String × Json) →
    Option (Json × List Char)
  | 0, _, _ => none
  | fuel + 1, cs, acc =>
    match cs with
    | '"' :: rest =>
      match parseStringRest [] rest with
      | some (k, r1) =>
        match skipWS r1 with
        | ':' :: r2 =>
          match parseValue fuel (skipWS r2) with
          | some (v, r3) =>
            match skipWS r3 with
            | ',' :: r4 => parseMembers fuel (skipWS r4) ((k, v) :: acc)
            | '}' :: r4 => some (.obj ((k, v) :: acc).reverse, r4)
            | _ => none
          | none => none
        | _ => none
      | none => none
    | _ => none

/-- Items of an array after `[`, first item not yet consumed. -/
def parseItems : Nat → List Char → List Json → Option (Json × List Char)
  | 0, _, _ => none
  | fuel + 1, cs, acc =>
    match parseValue fuel cs with
    | some (v, r1) =>
      match skipWS r1 with
      | ',' :: r2 => parseItems fuel (skipWS r2) (v :: acc)
      | ']' :: r2 => some (.arr (v :: acc).reverse, r2)
      | _ => none
    | none => none

end

/-- `JSON.parse`: whitespace, one value, whitespace, end of input.
Returns `none` exactly when `JSON.parse` throws a `SyntaxError`. -/
def parseJson (s : List Char) : Option Json :=
  match parseValue (2 * s.length + 2) (skipWS s) with
  | some (v, rest) => if skipWS rest = [] then some v else none
  | none => none

/-! ## The data model (`types.ts`) and the normalizer (`analyzeAudio`) -/

/-- The `Analysis` interface of `types.ts`: a name and a confidence. -/
structure Analysis where
  name : String
  confidence : JNum
deriving DecidableEq

/-- The `AnalysisResult` interface of `types.ts`. -/
structure AnalysisResult where
  language : Analysis
  accent : Analysis
deriving DecidableEq

/-- The distinct failures of the response-handling path of `analyzeAudio`
(each is thrown, caught by the surrounding `catch` and re-wrapped with the
`API call failed:` prefix, keeping its own message):
* `malformedResponse`: `JSON.parse` threw a `SyntaxError`;
* `nullAccess`: `parsedData.language` threw a `TypeError` because
  `JSON.parse` returned `null`;
* `invalidShape`: the explicit
  `"Invalid JSON structure received from API."` error of the validation. -/
inductive NormError where
  | malformedResponse
  | nullAccess
  | invalidShape
deriving DecidableEq

/-- JavaScript property read `v[k]` on a `JSON.parse` result: an own
property of an object (with the last duplicate key winning, as in
`JSON.parse`), `undefined` (`none`) on every other value.  Reading from
`null` is the separate `nullAccess` failure handled by the caller. -/
def getField (v : Json) (k : String) : Option Json :=
  match v with
  | .obj kvs => (kvs.reverse.find? (fun kv => kv.1 == k)).map (fun kv => kv.2)
  | _ => none

/-- JavaScript truthiness of a possibly-`undefined` value, as used by
`!parsedData.language`. -/
def jsTruthy : Option Json → Bool
  | none => false
  | some .null => false
  | some (.bool b) => b
  | some (.num q) => decide (q.mant ≠ 0)
  | some (.str s) => decide (s ≠ "")
  | some (.arr _) => true
  | some (.obj _) => true

/-- `typeof x === 'string'` for a possibly-`undefined` value. -/
def isStrField : Option Json → Bool
  | some (.str _) => true
  | _ => false

/-- `typeof x === 'number'` for a possibly-`undefined` value. -/
def isNumField : Option Json → Bool
  | some (.num _) => true
  | _ => false

/-- Lines 59–62 of `geminiService.ts`: the disjunction guarding
`throw new Error("Invalid JSON structure received from API.")`.
Short-circuiting makes the later property reads safe, and the `Bool`
disjunction here has the same value. -/
def structureInvalid (v : Json) : Bool :=
  !jsTruthy (getField v "language") ||
  !isStrField ((getField v "language").bind (fun l => getField l "name")) ||
  !isNumField ((getField v "language").bind (fun l => getField l "confidence")) ||
  !jsTruthy (getField v "accent") ||
  !isStrField ((getField v "accent").bind (fun a => getField a "name")) ||
  !isNumField ((getField v "accent").bind (fun a => getField a "confidence"))

/-- Lines 66–67: `Math.max(0, Math.min(100, confidence))`.  `JSON.parse`
never produces `NaN`, and on non-`NaN` doubles `Math.max` / `Math.min` are
the order operations on the denoted values. -/
def clampConf (q : JNum) : JNum :=
  let m := if JNum.le q ⟨100, 0⟩ then q else ⟨100, 0⟩
  if JNum.le ⟨0, 0⟩ m then m else ⟨0, 0⟩

/-- Whether the parsed value is `null` (reading a property of it would
throw a `TypeError`). -/
def isNullJson : Json → Bool
  | .null => true
  | _ => false

/-- Lines 65–69: read the four validated fields, clamp the confidences and
return the result.  The wildcard arm is unreachable when the value passed
validation: the four reads then have exactly the matched shapes. -/
def extractChecked (v : Json) : Except NormError AnalysisResult :=
  match (getField v "language").bind (fun l => getField l "name"),
        (getField v "language").bind (fun l => getField l "confidence"),
        (getField v "accent").bind (fun a => getField a "name"),
        (getField v "accent").bind (fun a => getField a "confidence") with
  | some (.str ln), some (.num lc), some (.str an), some (.num ac) =>
      .ok ⟨⟨ln, clampConf lc⟩, ⟨an, clampConf ac⟩⟩
  | _, _, _, _ => .error .invalidShape

/-- Lines 58–69: what happens to the parsed value — the `TypeError` on
`null`, the explicit shape check, then extraction with clamping. -/
def analyzeParsed (v : Json) : Except NormError AnalysisResult :=
  if isNullJson v then .error .nullAccess
  else if structureInvalid v then .error .invalidShape
  else extractChecked v

/-- Lines 48–69 of `geminiService.ts` (the pure part of `analyzeAudio`
after the provider responded): trim and de-fence, `JSON.parse`, then
validation and clamping of the parsed value. -/
def responseNormalizer (x : List Char) : Except NormError AnalysisResult :=
  match parseJson (deFence x) with
  | none => .error .malformedResponse
  | some v => analyzeParsed v

/-! ## The spec-side shape predicate (for the shape-validation claim)

`specShapeOK` is written from the specification text: "the parsed value
must be an object containing a `language` object and an `accent` object;
each of those must contain a `name` field of string type and a
`confidence` field of numeric type". -/

/-- Whether a value is an object. -/
def isObjJson : Json → Bool
  | .obj _ => true
  | _ => false

/-- Modelled from the spec: the field is an object with a string `name`
and a numeric `confidence`. -/
def fieldOK (o : Option Json) : Bool :=
  match o with
  | some (.obj kvs) =>
      isStrField (getField (.obj kvs) "name") &&
      isNumField (getField (.obj kvs) "confidence")
  | _ => false

/-- Modelled from the spec: the parsed value is an object containing a
`language` object and an `accent` object of the required shapes. -/
def specShapeOK (v : Json) : Bool :=
  isObjJson v && fieldOK (getField v "language") && fieldOK (getField v "accent")

/-! ## Facts connecting the parser with the de-fencing step -/

theorem jsonDigit_not_space_bq (c : Char) (h : jsonDigit c = true) :
    isJsSpace c = false ∧ c ≠ bq := by
  simp only [jsonDigit, Bool.and_eq_true, decide_eq_true_eq] at h
  constructor
  · simp only [isJsSpace, Bool.or_eq_false_iff, Bool.and_eq_false_iff,
      decide_eq_false_iff_not, beq_eq_false_iff_ne, ne_eq]
    omega
  · intro he
    have : c.toNat = 96 := by rw [he]; rfl
    omega

set_option maxHeartbeats 1000000 in
theorem parseValue_head {fuel : Nat} {cs : List Char} {v : Json}
    {rest : List Char} (h : parseValue fuel cs = some (v, rest)) :
    ∃ c cs', cs = c :: cs' ∧ isJsSpace c = false ∧ c ≠ bq := by
  match fuel, cs with
  | 0, _ => simp [parseValue] at h
  | _ + 1, [] => simp [parseValue] at h
  | fuel + 1, c :: cs' =>
    refine ⟨c, cs', rfl, ?_⟩
    rw [parseValue.eq_def] at h
    simp only [] at h
    by_cases h1 : c = '{'
    · subst h1; exact ⟨by decide, by decide⟩
    rw [if_neg h1] at h
    by_cases h2 : c = '['
    · subst h2; exact ⟨by decide, by decide⟩
    rw [if_neg h2] at h
    by_cases h3 : c = '"'
    · subst h3; exact ⟨by decide, by decide⟩
    rw [if_neg h3] at h
    by_cases h4 : c = 't'
    · subst h4; exact ⟨by decide, by decide⟩
    rw [if_neg h4] at h
    by_cases h5 : c = 'f'
    · subst h5; exact ⟨by decide, by decide⟩
    rw [if_neg h5] at h
    by_cases h6 : c = 'n'
    · subst h6; exact ⟨by decide, by decide⟩
    rw [if_neg h6] at h
    by_cases h7 : (c == '-' || jsonDigit c) = true
    · rcases Bool.or_eq_true_iff.mp h7 with hm | hd
      · have : c = '-' := by simpa using hm
        subst this; exact ⟨by decide, by decide⟩
      · exact jsonDigit_not_space_bq c hd
    · rw [if_neg (by simpa using h7)] at h
      simp at h

theorem parseValue_bq (fuel : Nat) (l : List Char) :
    parseValue fuel (bq :: l) = none := by
  cases hp : parseValue fuel (bq :: l) with
  | none => rfl
  | some x =>
    obtain ⟨c, cs', hc, -, hbq⟩ := @parseValue_head fuel (bq :: l) x.1 x.2
      (by rw [hp])
    have hcbq : c = bq := by
      injection hc with h1 h2
      exact h1.symm
    exact absurd hcbq hbq

theorem jsonWS_subset_space (c : Char) (h : isJsonWS c = true) :
    isJsSpace c = true := by
  simp only [isJsonWS, Bool.or_eq_true, beq_iff_eq] at h
  simp only [isJsSpace, Bool.or_eq_true, Bool.and_eq_true, decide_eq_true_eq,
    beq_iff_eq]
  omega

theorem dropWhile_subset (p q : Char → Bool) (l : List Char)
    (h : ∀ c, q c = true → p c = true) :
    l.dropWhile p = (l.dropWhile q).dropWhile p := by
  induction l with
  | nil => rfl
  | cons c l ih =>
    by_cases hq : q c
    · have hp := h c hq
      rw [show List.dropWhile q (c :: l) = List.dropWhile q l from by
        rw [List.dropWhile_cons, if_pos (by rw [hq])]]
      rw [List.dropWhile_cons, if_pos (by rw [hp])]
      exact ih
    · rw [show List.dropWhile q (c :: l) = c :: l from
        dropWhile_cons_not q c l (by simpa using hq)]

/-- When the input parses as JSON, its trimmed form starts with the
(non-whitespace, non-backtick) first character of the JSON value, so the
fence regex cannot match and the de-fencing step is just the trim. -/
theorem deFence_of_parse (l : List Char) {v : Json}
    (h : parseJson l = some v) :
    deFence l = jsTrimL l := by
  have hpv : ∃ pr, parseValue (2 * l.length + 2) (skipWS l) = some pr := by
    rw [parseJson] at h
    cases hp : parseValue (2 * l.length + 2) (skipWS l) with
    | none => rw [hp] at h; simp at h
    | some pr => exact ⟨pr, rfl⟩
  obtain ⟨⟨v', rest⟩, hp⟩ := hpv
  obtain ⟨c, cs', hcs, hcsp, hcbq⟩ := parseValue_head hp
  have hdw : l.dropWhile isJsSpace = c :: cs' := by
    rw [dropWhile_subset isJsSpace isJsonWS l jsonWS_subset_space]
    rw [show l.dropWhile isJsonWS = skipWS l from rfl, hcs]
    exact dropWhile_cons_not _ _ _ hcsp
  have htrim : jsTrimL l = c :: dropTrail isJsSpace cs' := by
    rw [jsTrimL, hdw, dropTrail_cons_not _ _ _ hcsp]
  apply deFence_nofence
  rw [htrim, hasFenceShape]
  have h0 : isB3At (c :: dropTrail isJsSpace cs') 0 = false := by
    simp only [isB3At, List.getElem?_cons_zero, Bool.and_eq_false_iff]
    left
    left
    simpa using hcbq
  rw [h0]
  rfl

theorem mem_of_skipWS_head {l : List Char} {c : Char} {cs' : List Char}
    (h : skipWS l = c :: cs') : c ∈ l := by
  have hsub := List.dropWhile_sublist (p := isJsonWS) (l := l)
  have : c ∈ skipWS l := by rw [h]; simp
  exact hsub.mem this

/-- `analyzeAudio`'s expected provider output wrapped in a Markdown fence:
three backticks, a tag, a newline, the body, a newline, three backticks. -/
def fenceWrap (tag body : List Char) : List Char :=
  (b3 ++ tag) ++ ('\n' :: (body ++ ('\n' :: b3)))

theorem getLast_append_b3 (l : List Char) :
    (l ++ b3)[(l ++ b3).length - 1]? = some bq := by
  have hre : l ++ b3 = (l ++ [bq, bq]) ++ [bq] := by simp [b3]
  rw [hre]
  have hlen : ((l ++ [bq, bq]) ++ [bq]).length - 1 = (l ++ [bq, bq]).length := by
    simp
  rw [hlen]
  exact List.getElem?_concat_length _ _

theorem jsTrimL_fenceWrap (tag body : List Char) :
    jsTrimL (fenceWrap tag body) = fenceWrap tag body := by
  apply jsTrimL_eq_self
  · intro c hc
    have : (fenceWrap tag body)[0]? = some bq := by
      show ((bq :: (bq :: bq :: tag)) ++ ('\n' :: (body ++ ('\n' :: b3))))[0]? =
        some bq
      simp
    rw [this] at hc
    cases hc
    exact isJsSpace_bq
  · intro c hc
    have hre : fenceWrap tag body =
        ((b3 ++ tag) ++ ('\n' :: (body ++ ['\n']))) ++ b3 := by
      simp [fenceWrap]
    rw [hre, getLast_append_b3] at hc
    cases hc
    exact isJsSpace_bq

theorem jsTrimL_append_ws (l sfx : List Char)
    (hl : ∃ c ∈ l, isJsSpace c = false)
    (hs : ∀ c ∈ sfx, isJsSpace c = true) :
    jsTrimL (l ++ sfx) = jsTrimL l := by
  obtain ⟨c0, hc0, hc0p⟩ := hl
  have hne : l.dropWhile isJsSpace ≠ [] := by
    intro he
    have := List.dropWhile_eq_nil_iff.mp he c0 hc0
    rw [hc0p] at this
    cases this
  rw [jsTrimL, jsTrimL, List.dropWhile_append,
    if_neg (by simpa [List.isEmpty_iff] using hne)]
  exact dropTrail_append_sat _ _ _ hs

/-- The de-fencing step undoes `fenceWrap` on anything that parses as
JSON: the capture is the trimmed body. -/
theorem deFence_fenceWrap (tag body : List Char) {v : Json}
    (htag : ∀ c ∈ tag, isWordChar c = true)
    (hparse : parseJson body = some v) :
    deFence (fenceWrap tag body) = jsTrimL body := by
  have hpv : ∃ pr, parseValue (2 * body.length + 2) (skipWS body) = some pr := by
    rw [parseJson] at hparse
    cases hp : parseValue (2 * body.length + 2) (skipWS body) with
    | none => rw [hp] at hparse; simp at hparse
    | some pr => exact ⟨pr, rfl⟩
  obtain ⟨⟨v', rest⟩, hp⟩ := hpv
  obtain ⟨c, cs', hcs, hcsp, -⟩ := parseValue_head hp
  have hcmem : c ∈ body := mem_of_skipWS_head hcs
  have hmid : ∃ d ∈ body ++ ['\n'], isJsSpace d = false :=
    ⟨c, by simp [hcmem], hcsp⟩
  have hdec : jsTrimL (fenceWrap tag body) =
      (b3 ++ tag) ++ ('\n' :: ((body ++ ['\n']) ++ b3)) := by
    rw [jsTrimL_fenceWrap]
    simp [fenceWrap]
  rw [deFence_strip (fenceWrap tag body) tag (body ++ ['\n']) htag hmid hdec]
  exact jsTrimL_append_ws body ['\n'] ⟨c, hcmem, hcsp⟩ (by simp [isJsSpace_nl])

/-- The normalizer is a function of the de-fenced text. -/
theorem responseNormalizer_congr (x y : List Char)
    (h : deFence x = deFence y) :
    responseNormalizer x = responseNormalizer y := by
  rw [responseNormalizer, responseNormalizer, h]

/-! ## Shape validation: code check versus spec wording -/

theorem isStrField_iff (o : Option Json) :
    isStrField o = true ↔ ∃ s, o = some (.str s) := by
  cases o with
  | none => simp [isStrField]
  | some j => cases j <;> simp [isStrField]

theorem isNumField_iff (o : Option Json) :
    isNumField o = true ↔ ∃ q, o = some (.num q) := by
  cases o with
  | none => simp [isNumField]
  | some j => cases j <;> simp [isNumField]

theorem getField_some_obj {v : Json} {k : String} {j : Json}
    (h : getField v k = some j) : ∃ kvs, v = Json.obj kvs := by
  cases v <;> simp [getField] at h ⊢

theorem fieldOK_iff (o : Option Json) :
    fieldOK o = true ↔
      (jsTruthy o = true ∧
        isStrField (o.bind (fun l => getField l "name")) = true ∧
        isNumField (o.bind (fun l => getField l "confidence")) = true) := by
  cases o with
  | none => simp [fieldOK, jsTruthy, isStrField]
  | some j =>
    cases j with
    | null => simp [fieldOK, jsTruthy, getField, isStrField]
    | bool b => simp [fieldOK, jsTruthy, getField, isStrField]
    | num q => simp [fieldOK, jsTruthy, getField, isStrField]
    | str str => simp [fieldOK, jsTruthy, getField, isStrField]
    | arr xs => simp [fieldOK, jsTruthy, getField, isStrField]
    | obj kvs => simp [fieldOK, jsTruthy]

theorem structureInvalid_false_iff (v : Json) :
    structureInvalid v = false ↔ specShapeOK v = true := by
  constructor
  · intro h
    rw [structureInvalid] at h
    simp only [Bool.or_eq_false_iff, Bool.not_eq_false'] at h
    obtain ⟨⟨⟨⟨⟨h1, h2⟩, h3⟩, h4⟩, h5⟩, h6⟩ := h
    have hL : fieldOK (getField v "language") = true :=
      (fieldOK_iff _).mpr ⟨h1, h2, h3⟩
    have hA : fieldOK (getField v "accent") = true :=
      (fieldOK_iff _).mpr ⟨h4, h5, h6⟩
    have hobj : isObjJson v = true := by
      obtain ⟨s0, hs0⟩ := (isStrField_iff _).mp h2
      cases hgl : getField v "language" with
      | none => rw [hgl] at hs0; simp at hs0
      | some j =>
        obtain ⟨kvs, rfl⟩ := getField_some_obj hgl
        rfl
    rw [specShapeOK, hobj, hL, hA]
    rfl
  · intro h
    rw [specShapeOK] at h
    simp only [Bool.and_eq_true] at h
    obtain ⟨⟨-, hL⟩, hA⟩ := h
    obtain ⟨h1, h2, h3⟩ := (fieldOK_iff _).mp hL
    obtain ⟨h4, h5, h6⟩ := (fieldOK_iff _).mp hA
    rw [structureInvalid]
    simp [h1, h2, h3, h4, h5, h6]

theorem fieldOK_shapes {o : Option Json} (h : fieldOK o = true) :
    ∃ kvs nm cf, o = some (.obj kvs) ∧
      getField (.obj kvs) "name" = some (.str nm) ∧
      getField (.obj kvs) "confidence" = some (.num cf) := by
  cases o with
  | none => simp [fieldOK] at h
  | some j =>
    cases j with
    | obj kvs =>
      rw [fieldOK] at h
      simp only [Bool.and_eq_true] at h
      obtain ⟨hs, hn⟩ := h
      obtain ⟨nm, hnm⟩ := (isStrField_iff _).mp hs
      obtain ⟨cf, hcf⟩ := (isNumField_iff _).mp hn
      exact ⟨kvs, nm, cf, rfl, hnm, hcf⟩
    | null => simp [fieldOK] at h
    | bool b => simp [fieldOK] at h
    | num q => simp [fieldOK] at h
    | str str => simp [fieldOK] at h
    | arr xs => simp [fieldOK] at h

/-! ## Reduction lemmas for the normalizer -/

theorem responseNormalizer_parse_none {x : List Char}
    (hp : parseJson (deFence x) = none) :
    responseNormalizer x = .error .malformedResponse := by
  rw [responseNormalizer, hp]

theorem responseNormalizer_parse_some {x : List Char} {v : Json}
    (hp : parseJson (deFence x) = some v) :
    responseNormalizer x = analyzeParsed v := by
  rw [responseNormalizer, hp]

theorem analyzeParsed_null : analyzeParsed Json.null = .error .nullAccess := rfl

theorem analyzeParsed_invalid {v : Json} (hnn : isNullJson v = false)
    (h : structureInvalid v = true) :
    analyzeParsed v = .error .invalidShape := by
  rw [analyzeParsed, hnn, h]
  rfl

theorem analyzeParsed_valid {v : Json} (hnn : isNullJson v = false)
    (h : structureInvalid v = false) :
    analyzeParsed v = extractChecked v := by
  rw [analyzeParsed, hnn, h]
  rfl

theorem extractChecked_shapes {v : Json} {kl ka : List (String × Json)}
    {ln an : String} {lc ac : JNum}
    (hl : getField v "language" = some (.obj kl))
    (ha : getField v "accent" = some (.obj ka))
    (hln : getField (.obj kl) "name" = some (.str ln))
    (hlc : getField (.obj kl) "confidence" = some (.num lc))
    (han : getField (.obj ka) "name" = some (.str an))
    (hac : getField (.obj ka) "confidence" = some (.num ac)) :
    extractChecked v = .ok ⟨⟨ln, clampConf lc⟩, ⟨an, clampConf ac⟩⟩ := by
  rw [extractChecked, hl, ha]
  show (match getField (Json.obj kl) "name", getField (Json.obj kl) "confidence",
      getField (Json.obj ka) "name", getField (Json.obj ka) "confidence" with
    | some (.str ln), some (.num lc), some (.str an), some (.num ac) =>
        (Except.ok ⟨⟨ln, clampConf lc⟩, ⟨an, clampConf ac⟩⟩ :
          Except NormError AnalysisResult)
    | _, _, _, _ => .error .invalidShape) =
    .ok ⟨⟨ln, clampConf lc⟩, ⟨an, clampConf ac⟩⟩
  rw [hln, hlc, han, hac]

theorem analyzeParsed_of_shapes {v : Json} {kl ka : List (String × Json)}
    {ln an : String} {lc ac : JNum}
    (hl : getField v "language" = some (.obj kl))
    (ha : getField v "accent" = some (.obj ka))
    (hln : getField (.obj kl) "name" = some (.str ln))
    (hlc : getField (.obj kl) "confidence" = some (.num lc))
    (han : getField (.obj ka) "name" = some (.str an))
    (hac : getField (.obj ka) "confidence" = some (.num ac)) :
    analyzeParsed v = .ok ⟨⟨ln, clampConf lc⟩, ⟨an, clampConf ac⟩⟩ := by
  obtain ⟨kvs, rfl⟩ := getField_some_obj hl
  have hval : structureInvalid (Json.obj kvs) = false := by
    rw [structureInvalid_false_iff, specShapeOK]
    have hfl : fieldOK (getField (Json.obj kvs) "language") = true := by
      rw [hl, fieldOK]
      simp [(isStrField_iff _).mpr ⟨ln, hln⟩, (isNumField_iff _).mpr ⟨lc, hlc⟩]
    have hfa : fieldOK (getField (Json.obj kvs) "accent") = true := by
      rw [ha, fieldOK]
      simp [(isStrField_iff _).mpr ⟨an, han⟩, (isNumField_iff _).mpr ⟨ac, hac⟩]
    simp [isObjJson, hfl, hfa]
  rw [analyzeParsed_valid (show isNullJson (Json.obj kvs) = false from rfl) hval]
  exact extractChecked_shapes hl ha hln hlc han hac

/-! ## The clamp, on the denoted values -/

theorem ten_zpow_pos (e : ℤ) : (0 : ℚ) < (10 : ℚ) ^ e :=
  zpow_pos (by norm_num) e

theorem scale_le_iff_left (am bm ae be : ℤ) (h : ae ≤ be) :
    ((am : ℚ) * 10 ^ ae ≤ (bm : ℚ) * 10 ^ be ↔
      am ≤ bm * 10 ^ (be - ae).toNat) := by
  obtain ⟨k, hk⟩ : ∃ k : ℕ, be = ae + k := ⟨(be - ae).toNat, by omega⟩
  subst hk
  rw [show (ae + (k : ℤ) - ae).toNat = k by omega]
  rw [zpow_add₀ (by norm_num : (10 : ℚ) ≠ 0), zpow_natCast]
  rw [show (bm : ℚ) * ((10 : ℚ) ^ ae * (10 : ℚ) ^ k) =
    ((bm : ℚ) * (10 : ℚ) ^ k) * (10 : ℚ) ^ ae by ring]
  rw [mul_le_mul_right (ten_zpow_pos ae)]
  constructor
  · intro hle
    exact_mod_cast hle
  · intro hle
    exact_mod_cast hle

theorem scale_le_iff_right (am bm ae be : ℤ) (h : be ≤ ae) :
    ((am : ℚ) * 10 ^ ae ≤ (bm : ℚ) * 10 ^ be ↔
      am * 10 ^ (ae - be).toNat ≤ bm) := by
  obtain ⟨k, hk⟩ : ∃ k : ℕ, ae = be + k := ⟨(ae - be).toNat, by omega⟩
  subst hk
  rw [show (be + (k : ℤ) - be).toNat = k by omega]
  rw [zpow_add₀ (by norm_num : (10 : ℚ) ≠ 0), zpow_natCast]
  rw [show (am : ℚ) * ((10 : ℚ) ^ be * (10 : ℚ) ^ k) =
    ((am : ℚ) * (10 : ℚ) ^ k) * (10 : ℚ) ^ be by ring]
  rw [mul_le_mul_right (ten_zpow_pos be)]
  constructor
  · intro hle
    exact_mod_cast hle
  · intro hle
    exact_mod_cast hle

theorem JNum.le_iff (a b : JNum) :
    JNum.le a b = true ↔ a.toRat ≤ b.toRat := by
  rw [JNum.le, JNum.toRat, JNum.toRat]
  by_cases h : a.exp ≤ b.exp
  · rw [if_pos h, decide_eq_true_eq, ← scale_le_iff_left a.mant b.mant _ _ h]
  · rw [if_neg h, decide_eq_true_eq,
      ← scale_le_iff_right a.mant b.mant _ _ (by omega)]

theorem toRat_zero : (JNum.mk 0 0).toRat = 0 := by
  rw [JNum.toRat]
  norm_num

theorem toRat_hundred : (JNum.mk 100 0).toRat = 100 := by
  rw [JNum.toRat]
  norm_num

theorem clampConf_eq (q : JNum) :
    clampConf q =
      if JNum.le ⟨0, 0⟩ (if JNum.le q ⟨100, 0⟩ then q else ⟨100, 0⟩) then
        (if JNum.le q ⟨100, 0⟩ then q else ⟨100, 0⟩)
      else ⟨0, 0⟩ := rfl

theorem clampConf_cases (q : JNum) :
    clampConf q =
      if q.toRat < 0 then ⟨0, 0⟩
      else if 100 < q.toRat then ⟨100, 0⟩ else q := by
  rw [clampConf_eq]
  by_cases hq100 : JNum.le q ⟨100, 0⟩ = true
  · have hle : q.toRat ≤ 100 := by
      have := (JNum.le_iff q ⟨100, 0⟩).mp hq100
      rwa [toRat_hundred] at this
    rw [if_pos hq100, if_neg (not_lt.mpr hle)]
    by_cases hq0 : JNum.le ⟨0, 0⟩ q = true
    · have h0le : 0 ≤ q.toRat := by
        have := (JNum.le_iff ⟨0, 0⟩ q).mp hq0
        rwa [toRat_zero] at this
      rw [if_pos hq0, if_neg (not_lt.mpr h0le)]
    · have hlt : q.toRat < 0 := by
        have := (JNum.le_iff ⟨0, 0⟩ q)
        rw [toRat_zero] at this
        have hnot : ¬ (0 : ℚ) ≤ q.toRat := fun hc => hq0 (this.mpr hc)
        exact not_le.mp hnot
      rw [if_neg hq0, if_pos hlt]
  · have hgt : 100 < q.toRat := by
      have := (JNum.le_iff q ⟨100, 0⟩)
      rw [toRat_hundred] at this
      have hnot : ¬ q.toRat ≤ 100 := fun hc => hq100 (this.mpr hc)
      exact not_le.mp hnot
    rw [if_neg hq100, if_pos (by decide), if_neg (by linarith), if_pos hgt]

theorem clampConf_bounds (q : JNum) :
    0 ≤ (clampConf q).toRat ∧ (clampConf q).toRat ≤ 100 := by
  rw [clampConf_cases]
  by_cases h1 : q.toRat < 0
  · rw [if_pos h1, toRat_zero]
    norm_num
  · rw [if_neg h1]
    by_cases h2 : 100 < q.toRat
    · rw [if_pos h2, toRat_hundred]
      norm_num
    · rw [if_neg h2]
      constructor
      · exact le_of_not_lt h1
      · exact le_of_not_lt h2

/-! ## The recording session (the main `App` component) -/

/-- The `RecordingState` union of `types.ts`. -/
inductive RecordingState where
  | idle
  | recording
  | processing
  | result
  | error
deriving DecidableEq

/-- The events on which `App` calls `setRecordingState`, one per code
path:
* `startOk` — `startRecording` succeeded (microphone granted, recorder
  started);
* `startFail` — `getUserMedia` threw before the state changed, so the
  `catch` moves `idle` to `error` (microphone denied);
* `stopEmpty` — `processAudio` ran with no recorded chunks;
* `stopFull` — `processAudio` ran with audio and began the analysis;
* `analysisOk` / `analysisFail` — the awaited `analyzeAudio` resolved or
  rejected;
* `reset` — the user pressed the reset button (`handleReset`).
A failure inside `startRecording` after `setRecordingState('recording')`
(visualizer setup) produces the same `recording → error` edge as
`stopEmpty`. -/
inductive SessionEv where
  | startOk
  | startFail
  | stopEmpty
  | stopFull
  | analysisOk
  | analysisFail
  | reset
deriving DecidableEq

/-- The transition function of `App`: which `setRecordingState` calls can
fire from which rendered state.  The start button is rendered only in
`idle`, the stop button only in `recording` (and `stopRecording` also
guards on the recorder being active), the reset button only in `result`
and `error`, and the analysis continuation runs only while `processing`. -/
def sessionStep : RecordingState → SessionEv → Option RecordingState
  | .idle, .startOk => some .recording
  | .idle, .startFail => some .error
  | .recording, .stopEmpty => some .error
  | .recording, .stopFull => some .processing
  | .processing, .analysisOk => some .result
  | .processing, .analysisFail => some .error
  | .result, .reset => some .idle
  | .error, .reset => some .idle
  | _, _ => none

/-- The edge list of the specification's state machine (§4.3):
`idle → recording → (processing | error)`; `processing → (result | error)`;
`result | error → idle`. -/
def specEdges : List (RecordingState × RecordingState) :=
  [(.idle, .recording), (.recording, .processing), (.recording, .error),
   (.processing, .result), (.processing, .error), (.result, .idle),
   (.error, .idle)]

/-- The pieces of `App` state that `processAudio` touches. -/
structure AppState where
  recordingState : RecordingState
  analysisResult : Option AnalysisResult
  errorMsg : Option String
  audioChunks : List (List Nat)
deriving DecidableEq

/-- `processAudio` of the main component, with the single awaited
`analyzeAudio` exchange abstracted by its outcome.  Returns the final
state together with whether the provider was called.  With no recorded
chunks it sets the error message and state and returns at once; otherwise
it clears the chunks, sends the audio, and ends in `result` or `error`
(the transient `processing` state is where the awaited call happens). -/
def processAudio (st : AppState) (outcome : Except String AnalysisResult) :
    AppState × Bool :=
  if st.audioChunks = [] then
    ({ st with recordingState := .error,
               errorMsg := some "No audio was recorded. Please try again." },
     false)
  else
    match outcome with
    | .ok r =>
        ({ st with recordingState := .result, analysisResult := some r,
                   errorMsg := none, audioChunks := [] }, true)
    | .error m =>
        ({ st with recordingState := .error,
                   errorMsg := some ("Failed to analyze audio. " ++ m),
                   audioChunks := [] }, true)

/-- Decidable equality for `Except` results (not provided by the
library). -/
instance {e a : Type} [DecidableEq e] [DecidableEq a] :
    DecidableEq (Except e a) := fun x y =>
  match x, y with
  | .ok u, .ok v =>
    match decEq u v with
    | isTrue h => isTrue (by rw [h])
    | isFalse h => isFalse (fun he => h (by injection he))
  | .error u, .error v =>
    match decEq u v with
    | isTrue h => isTrue (by rw [h])
    | isFalse h => isFalse (fun he => h (by injection he))
  | .ok _, .error _ => isFalse (fun h => Except.noConfusion h)
  | .error _, .ok _ => isFalse (fun h => Except.noConfusion h)

/-- Conversion from a computed `isNone` to an equation, for discharging
parse-failure hypotheses on concrete inputs. -/
theorem option_none_of_isNone {o : Option Json} (h : o.isNone = true) :
    o = none := Option.isNone_iff_eq_none.mp h

/-! ## The claims -/

/-- C1, counterexample.  The de-fencing step does not honour fences of
"three or more" backticks: on `````json\nbody\n``` ` (four opening
backticks) the code returns `` `json\nbody `` instead of the body `body`;
and on a fence whose body is empty (```` ```\n\n``` ````) the code leaves
the fenced string intact instead of returning the empty body. -/
theorem C1_counterexample :
    (deFence ("````json\nbody\n```").data = ("`json\nbody").data ∧
      ("`json\nbody").data ≠ ("body").data) ∧
    (deFence ("```\n\n```").data = ("```\n\n```").data ∧
      ("```\n\n```").data ≠ ([] : List Char)) := by
  exact ⟨⟨by decide, by decide⟩, ⟨by decide, by decide⟩⟩

/-- C1 (amended): if the trimmed input is an opening fence line of exactly
three backticks followed by an optional word token and a newline, then a
remainder containing at least one non-whitespace character, closed by
exactly three backticks at the very end, the de-fencing step returns just
that remainder, trimmed — multi-line remainders included; and if the
trimmed input does not both begin and end with three backticks, it is
returned unchanged. -/
theorem C1_defencing_contract :
    (∀ x tag mid : List Char,
      (∀ c ∈ tag, isWordChar c = true) →
      (∃ c ∈ mid, isJsSpace c = false) →
      jsTrimL x = (b3 ++ tag) ++ ('\n' :: (mid ++ b3)) →
      deFence x = jsTrimL mid) ∧
    (∀ x : List Char, hasFenceShape (jsTrimL x) = false →
      deFence x = jsTrimL x) :=
  ⟨fun x tag mid htag hmid hdec => deFence_strip x tag mid htag hmid hdec,
   fun x h => deFence_nofence x h⟩

/-- C1 witness: a concrete fenced JSON body is de-fenced to the body, and
a concrete unfenced string is only trimmed. -/
theorem C1_defencing_contract_witness :
    deFence ("```json\n\x7b\"a\":1\x7d\n```").data =
      jsTrimL (("\x7b\"a\":1\x7d\n").data) ∧
    deFence ("  hello  ").data = jsTrimL ("  hello  ").data :=
  ⟨C1_defencing_contract.1 ("```json\n\x7b\"a\":1\x7d\n```").data
      ("json").data ("\x7b\"a\":1\x7d\n").data
      (by decide) (by decide) (by decide),
   C1_defencing_contract.2 ("  hello  ").data (by decide)⟩

/-- C2: for every JSON body that parses and matches the expected schema,
the normalizer yields the same result on the body wrapped in a
triple-backtick fence (with any word-character language tag, including the
empty one) as on the unfenced body. -/
theorem C2_fence_invariance (tag body : List Char) (v : Json)
    (htag : ∀ c ∈ tag, isWordChar c = true)
    (hparse : parseJson body = some v)
    (hshape : specShapeOK v = true) :
    responseNormalizer (fenceWrap tag body) = responseNormalizer body := by
  apply responseNormalizer_congr
  rw [deFence_fenceWrap tag body htag hparse, deFence_of_parse body hparse]

/-- C2 witness: the specification's end-to-end example body, fenced with
the `json` tag. -/
theorem C2_fence_invariance_witness :
    responseNormalizer (fenceWrap ("json").data
      ("\x7b\"language\":\x7b\"name\":\"English\",\"confidence\":95\x7d,\"accent\":\x7b\"name\":\"American\",\"confidence\":110\x7d\x7d").data) =
    responseNormalizer
      ("\x7b\"language\":\x7b\"name\":\"English\",\"confidence\":95\x7d,\"accent\":\x7b\"name\":\"American\",\"confidence\":110\x7d\x7d").data :=
  C2_fence_invariance ("json").data _
    (Json.obj [("language", Json.obj [("name", Json.str "English"),
        ("confidence", Json.num ⟨95, 0⟩)]),
      ("accent", Json.obj [("name", Json.str "American"),
        ("confidence", Json.num ⟨110, 0⟩)])])
    (by decide) (@option_eq_of_ojeqF _ _ 1000000 (by decide) (by decide))
    (by decide)

/-- C3: for every payload that passes shape validation, each confidence
outside [0, 100] is clamped into the inclusive range rather than rejected
— a value below 0 becomes 0, a value above 100 becomes 100 — and a value
already in [0, 100] is returned unchanged. -/
theorem C3_clamping (x : List Char) (v : Json) (kl ka : List (String × Json))
    (ln an : String) (lc ac : JNum)
    (hp : parseJson (deFence x) = some v)
    (hl : getField v "language" = some (.obj kl))
    (ha : getField v "accent" = some (.obj ka))
    (hln : getField (.obj kl) "name" = some (.str ln))
    (hlc : getField (.obj kl) "confidence" = some (.num lc))
    (han : getField (.obj ka) "name" = some (.str an))
    (hac : getField (.obj ka) "confidence" = some (.num ac)) :
    responseNormalizer x = .ok
      ⟨⟨ln, if lc.toRat < 0 then ⟨0, 0⟩
            else if 100 < lc.toRat then ⟨100, 0⟩ else lc⟩,
       ⟨an, if ac.toRat < 0 then ⟨0, 0⟩
            else if 100 < ac.toRat then ⟨100, 0⟩ else ac⟩⟩ := by
  rw [responseNormalizer_parse_some hp,
    analyzeParsed_of_shapes hl ha hln hlc han hac,
    clampConf_cases, clampConf_cases]

/-- C3 witness: confidence `150` is clamped to `100` and `-10` to `0`, as
in the specification's examples. -/
theorem C3_clamping_witness :
    responseNormalizer
      ("\x7b\"language\":\x7b\"name\":\"English\",\"confidence\":150\x7d,\"accent\":\x7b\"name\":\"American\",\"confidence\":-10\x7d\x7d").data =
    .ok ⟨⟨"English", ⟨100, 0⟩⟩, ⟨"American", ⟨0, 0⟩⟩⟩ := by
  have h := C3_clamping
    ("\x7b\"language\":\x7b\"name\":\"English\",\"confidence\":150\x7d,\"accent\":\x7b\"name\":\"American\",\"confidence\":-10\x7d\x7d").data
    (Json.obj [("language", Json.obj [("name", Json.str "English"),
        ("confidence", Json.num ⟨150, 0⟩)]),
      ("accent", Json.obj [("name", Json.str "American"),
        ("confidence", Json.num ⟨-10, 0⟩)])])
    [("name", Json.str "English"), ("confidence", Json.num ⟨150, 0⟩)]
    [("name", Json.str "American"), ("confidence", Json.num ⟨-10, 0⟩)]
    "English" "American" ⟨150, 0⟩ ⟨-10, 0⟩
    (@option_eq_of_ojeqF _ _ 1000000 (by decide) (by decide))
    rfl rfl rfl rfl rfl rfl
  rw [h]
  norm_num [JNum.toRat]

/-- C4, counterexample.  The clamp does not round: on an otherwise valid
payload whose language confidence is `95.5` the normalizer succeeds and
returns the non-integral confidence `95.5` (the exact decimal
`955·10⁻¹`), so the returned confidence is not always an integer. -/
theorem C4_counterexample :
    responseNormalizer
      ("\x7b\"language\":\x7b\"name\":\"E\",\"confidence\":95.5\x7d,\"accent\":\x7b\"name\":\"A\",\"confidence\":88\x7d\x7d").data =
      .ok ⟨⟨"E", ⟨955, -1⟩⟩, ⟨"A", ⟨88, 0⟩⟩⟩ ∧
    (∀ k : ℤ, (JNum.mk 955 (-1)).toRat ≠ (k : ℚ)) := by
  constructor
  · decide
  · intro k hk
    rw [JNum.toRat] at hk
    rw [zpow_neg, zpow_one] at hk
    field_simp at hk
    have hk' : (955 : ℤ) = k * 10 := by exact_mod_cast hk
    omega

/-- C4 (amended): every `AnalysisResult` the normalizer returns satisfies
`0 ≤ confidence ≤ 100` for both fields — as values, with no integrality
guarantee (the code clamps but never rounds). -/
theorem C4_result_bounds (x : List Char) (r : AnalysisResult)
    (h : responseNormalizer x = .ok r) :
    0 ≤ r.language.confidence.toRat ∧ r.language.confidence.toRat ≤ 100 ∧
    0 ≤ r.accent.confidence.toRat ∧ r.accent.confidence.toRat ≤ 100 := by
  cases hp : parseJson (deFence x) with
  | none =>
    rw [responseNormalizer_parse_none hp] at h
    simp at h
  | some v =>
    rw [responseNormalizer_parse_some hp] at h
    rw [analyzeParsed] at h
    by_cases hn : isNullJson v = true
    · rw [if_pos hn] at h
      simp at h
    · rw [if_neg hn] at h
      by_cases hs : structureInvalid v = true
      · rw [if_pos hs] at h
        simp at h
      · rw [if_neg hs] at h
        rw [extractChecked] at h
        split at h
        · simp only [Except.ok.injEq] at h
          subst h
          exact ⟨(clampConf_bounds _).1, (clampConf_bounds _).2,
            (clampConf_bounds _).1, (clampConf_bounds _).2⟩
        · simp at h

/-- C4 witness: the bounds hold for the result returned on a concrete
successful input (the `95.5` payload). -/
theorem C4_result_bounds_witness :
    0 ≤ (AnalysisResult.mk ⟨"E", ⟨955, -1⟩⟩
        ⟨"A", ⟨88, 0⟩⟩).language.confidence.toRat ∧
    (AnalysisResult.mk ⟨"E", ⟨955, -1⟩⟩
        ⟨"A", ⟨88, 0⟩⟩).language.confidence.toRat ≤ 100 ∧
    0 ≤ (AnalysisResult.mk ⟨"E", ⟨955, -1⟩⟩
        ⟨"A", ⟨88, 0⟩⟩).accent.confidence.toRat ∧
    (AnalysisResult.mk ⟨"E", ⟨955, -1⟩⟩
        ⟨"A", ⟨88, 0⟩⟩).accent.confidence.toRat ≤ 100 :=
  C4_result_bounds
    ("\x7b\"language\":\x7b\"name\":\"E\",\"confidence\":95.5\x7d,\"accent\":\x7b\"name\":\"A\",\"confidence\":88\x7d\x7d").data
    ⟨⟨"E", ⟨955, -1⟩⟩, ⟨"A", ⟨88, 0⟩⟩⟩ (by decide)

/-- C5, counterexample.  The "if and only if" fails at the parsed value
`null`: the payload is not an object of the required shape, yet the code
does not fail with the shape-validation error — reading
`parsedData.language` from `null` throws a `TypeError` instead. -/
theorem C5_counterexample :
    parseJson (deFence ("null").data) = some Json.null ∧
    specShapeOK Json.null = false ∧
    responseNormalizer ("null").data = .error .nullAccess ∧
    NormError.nullAccess ≠ NormError.invalidShape := by
  refine ⟨@option_eq_of_ojeqF _ _ 100 (by decide) (by decide),
    by decide, by decide, by decide⟩

/-- C5 (amended): for every input whose de-fenced text parses as JSON to a
value other than `null`, the normalizer fails with the shape-validation
error if and only if the parsed value is not an object containing a
`language` object and an `accent` object each having a string `name` and a
numeric `confidence`; a parsed `null` fails with the distinct
property-access `TypeError` instead. -/
theorem C5_shape_validation (x : List Char) (v : Json)
    (hp : parseJson (deFence x) = some v) (hv : v ≠ Json.null) :
    (responseNormalizer x = .error .invalidShape ↔ specShapeOK v = false) := by
  rw [responseNormalizer_parse_some hp]
  have hnn : isNullJson v = false := by
    cases v with
    | null => exact absurd rfl hv
    | bool b => rfl
    | num q => rfl
    | str s => rfl
    | arr xs => rfl
    | obj kvs => rfl
  by_cases hs : structureInvalid v = true
  · rw [analyzeParsed_invalid hnn hs]
    constructor
    · intro _
      cases hss : specShapeOK v with
      | false => rfl
      | true =>
        have := (structureInvalid_false_iff v).mpr hss
        rw [hs] at this
        cases this
    · intro _
      rfl
  · have hs' : structureInvalid v = false := by
      cases hsv : structureInvalid v with
      | true => exact absurd hsv hs
      | false => rfl
    have hspec : specShapeOK v = true := (structureInvalid_false_iff v).mp hs'
    rw [analyzeParsed_valid hnn hs']
    have hokk : ∃ r, extractChecked v = .ok r := by
      rw [specShapeOK] at hspec
      simp only [Bool.and_eq_true] at hspec
      obtain ⟨⟨-, hL⟩, hA⟩ := hspec
      obtain ⟨kl, ln, lc, hl, hln, hlc⟩ := fieldOK_shapes hL
      obtain ⟨ka, an, ac, ha, han, hac⟩ := fieldOK_shapes hA
      exact ⟨_, extractChecked_shapes hl ha hln hlc han hac⟩
    obtain ⟨r, hr⟩ := hokk
    rw [hr]
    constructor
    · intro habs
      simp at habs
    · intro hfalse
      rw [hspec] at hfalse
      cases hfalse

/-- C5 witness: a payload missing the `accent` object entirely fails with
the shape-validation error. -/
theorem C5_shape_validation_witness :
    (responseNormalizer
        ("\x7b\"language\":\x7b\"name\":\"a\",\"confidence\":1\x7d\x7d").data =
      .error .invalidShape ↔
    specShapeOK (Json.obj [("language", Json.obj [("name", Json.str "a"),
      ("confidence", Json.num ⟨1, 0⟩)])]) = false) :=
  C5_shape_validation _
    (Json.obj [("language", Json.obj [("name", Json.str "a"),
      ("confidence", Json.num ⟨1, 0⟩)])])
    (@option_eq_of_ojeqF _ _ 1000000 (by decide) (by decide))
    (fun h => Json.noConfusion h)

/-- C6: for every input whose de-fenced text is not valid JSON, the
normalizer fails with the parse error (`MalformedResponse`), which is
distinct from the shape-validation error. -/
theorem C6_parse_failure (x : List Char)
    (h : parseJson (deFence x) = none) :
    responseNormalizer x = .error .malformedResponse ∧
    NormError.malformedResponse ≠ NormError.invalidShape :=
  ⟨responseNormalizer_parse_none h, by decide⟩

/-- C6 witness: text with truncated braces fails with the parse error. -/
theorem C6_parse_failure_witness :
    responseNormalizer ("\x7b\"language\":").data =
      .error .malformedResponse ∧
    NormError.malformedResponse ≠ NormError.invalidShape :=
  C6_parse_failure ("\x7b\"language\":").data
    (option_none_of_isNone (by decide))

/-- C7: de-fencing is idempotent on already-unfenced text: when the
de-fencing step leaves the (trimmed) input unchanged, applying it twice
yields the same text as applying it once. -/
theorem C7_defencing_idempotent (x : List Char) (h : deFence x = jsTrimL x) :
    deFence (deFence x) = deFence x :=
  deFence_idem_of_unchanged x h

/-- C7 witness: idempotence on a concrete unfenced string. -/
theorem C7_defencing_idempotent_witness :
    deFence (deFence ("  hello  ").data) = deFence ("  hello  ").data :=
  C7_defencing_idempotent ("  hello  ").data (by decide)

/-- C8: a recording session that produced zero audio bytes moves to the
`error` state with the "No audio was recorded. Please try again." message,
and the provider is not called (the returned flag is `false`). -/
theorem C8_empty_recording (st : AppState)
    (outcome : Except String AnalysisResult)
    (h : st.audioChunks = []) :
    processAudio st outcome =
      ({ st with recordingState := .error,
                 errorMsg := some "No audio was recorded. Please try again." },
       false) := by
  rw [processAudio.eq_def, if_pos h]

/-- C8 witness: the empty-recording guard on a concrete session. -/
theorem C8_empty_recording_witness :
    processAudio ⟨RecordingState.recording, none, none, []⟩
        (.error "boom") =
      (⟨RecordingState.error, none,
        some "No audio was recorded. Please try again.", []⟩, false) :=
  C8_empty_recording ⟨RecordingState.recording, none, none, []⟩
    (.error "boom") rfl

/-- C9, counterexample.  The controller also performs the transition
`idle → error`: when microphone access is denied, `startRecording`'s
`catch` sets the error state directly from `idle`, an edge absent from the
specification's list. -/
theorem C9_counterexample :
    sessionStep RecordingState.idle SessionEv.startFail =
      some RecordingState.error ∧
    (RecordingState.idle, RecordingState.error) ∉ specEdges := by
  exact ⟨rfl, by decide⟩

/-- C9 (amended): every transition the controller performs follows either
one of the specified edges or the additional `idle → error` edge taken
when microphone access is denied; no other transition occurs. -/
theorem C9_transitions (s s' : RecordingState) (e : SessionEv)
    (h : sessionStep s e = some s') :
    (s, s') ∈ (RecordingState.idle, RecordingState.error) :: specEdges := by
  cases s <;> cases e <;> simp_all [sessionStep, specEdges]

/-- C9 witness: the `idle → recording` edge is among the allowed ones. -/
theorem C9_transitions_witness :
    (RecordingState.idle, RecordingState.recording) ∈
      (RecordingState.idle, RecordingState.error) :: specEdges :=
  C9_transitions RecordingState.idle RecordingState.recording
    SessionEv.startOk rfl

/-- C10: an input that is solely a fence around an empty or
whitespace-only body is left intact by the de-fencing step (the capture is
empty and empty strings are falsy), so the subsequent JSON parse of the
still-fenced text fails with the parse error; and the fence is stripped
only when the captured body is non-empty. -/
theorem C10_empty_fence :
    (∀ x tag w : List Char,
      (∀ c ∈ tag, isWordChar c = true) →
      (∀ c ∈ w, isJsSpace c = true) →
      jsTrimL x = (b3 ++ tag) ++ (w ++ b3) →
      deFence x = jsTrimL x ∧
      responseNormalizer x = .error .malformedResponse) ∧
    (∀ y : List Char, deFence y ≠ jsTrimL y →
      ∃ c, fenceMatch (jsTrimL y) = some c ∧ c ≠ []) := by
  constructor
  · intro x tag w htag hw hdec
    have hd : deFence x = jsTrimL x := deFence_ws_fence x tag w htag hw hdec
    refine ⟨hd, ?_⟩
    apply responseNormalizer_parse_none
    rw [hd, hdec]
    have hcons : (b3 ++ tag) ++ (w ++ b3) =
        bq :: ((bq :: bq :: tag) ++ (w ++ b3)) := by simp [b3]
    rw [hcons, parseJson]
    have hskip : skipWS (bq :: ((bq :: bq :: tag) ++ (w ++ b3))) =
        bq :: ((bq :: bq :: tag) ++ (w ++ b3)) :=
      dropWhile_cons_not isJsonWS _ _ (by decide)
    rw [hskip, parseValue_bq]
  · intro y hne
    rw [deFence_eq] at hne
    cases hfm : fenceMatch (jsTrimL y) with
    | none =>
      rw [hfm] at hne
      exact absurd rfl hne
    | some c =>
      refine ⟨c, rfl, ?_⟩
      intro hcnil
      subst hcnil
      rw [hfm] at hne
      simp at hne

/-- C10 witness: the empty-bodied fence is kept and fails to parse, and
the fence of a concrete non-empty body really is stripped. -/
theorem C10_empty_fence_witness :
    (deFence ("```\n```").data = jsTrimL ("```\n```").data ∧
      responseNormalizer ("```\n```").data = .error .malformedResponse) ∧
    (∃ c, fenceMatch (jsTrimL ("```json\nX\n```").data) = some c ∧ c ≠ []) :=
  ⟨C10_empty_fence.1 ("```\n```").data [] ['\n']
      (by decide) (by decide) (by decide),
   C10_empty_fence.2 ("```json\nX\n```").data (by decide)⟩
